import Mathlib

/-!
Verification of the request-canonicalization and signing pipeline of the
Aws repository (SignApi.cpp, S3.cpp) against its natural-language
specification.

The development shallowly embeds the C++ source:
strings are Lean `String`s, byte sequences are `List Nat` (each element
below 256; the inputs handled by the signing core are ASCII), fallible
code returns `Option`.  The SHA-256 and HMAC-SHA256 primitives consumed
by the source are an external black-box library per the spec, so they
are modelled from the spec (the published FIPS 180-4 / RFC 2104
algorithms those names denote).
-/

namespace AwsProof

/-! ## Bytes and hex encoding -/

/-- The raw ASCII bytes of a string (each `Char` code point; the signing
core only handles ASCII data). -/
def strBytes (s : String) : List Nat :=
  s.data.map Char.toNat

/-- Lowercase hexadecimal digit for a value below 16. -/
def hexDigit (n : Nat) : Char :=
  if n < 10 then Char.ofNat (48 + n) else Char.ofNat (87 + n)

/-- Lowercase hexadecimal rendering of a byte sequence, two digits per
byte (the `Hash::...ToString` encoding of the hash library). -/
def hexOfBytes (bs : List Nat) : String :=
  String.mk (bs.flatMap (fun b => [hexDigit (b / 16), hexDigit (b % 16)]))

/-! ## SHA-256

Modelled from the spec: the external hashing library's `digest(bytes) ->
bytes` primitive named SHA-256, i.e. the FIPS 180-4 algorithm.
Machine words are `Nat` reduced modulo `2 ^ 32`. -/

/-- 32-bit modular addition. -/
def add32 (a b : Nat) : Nat := (a + b) % 4294967296

/-- Rotate a 32-bit word right by `n`. -/
def rotr (n x : Nat) : Nat := x / 2 ^ n + x % 2 ^ n * 2 ^ (32 - n)

/-- SHA-256 big sigma 0. -/
def bsig0 (x : Nat) : Nat := rotr 2 x ^^^ rotr 13 x ^^^ rotr 22 x

/-- SHA-256 big sigma 1. -/
def bsig1 (x : Nat) : Nat := rotr 6 x ^^^ rotr 11 x ^^^ rotr 25 x

/-- SHA-256 small sigma 0. -/
def ssig0 (x : Nat) : Nat := rotr 7 x ^^^ rotr 18 x ^^^ x / 2 ^ 3

/-- SHA-256 small sigma 1. -/
def ssig1 (x : Nat) : Nat := rotr 17 x ^^^ rotr 19 x ^^^ x / 2 ^ 10

/-- SHA-256 choose function. -/
def chF (x y z : Nat) : Nat := x &&& y ^^^ ((x ^^^ 4294967295) &&& z)

/-- SHA-256 majority function. -/
def majF (x y z : Nat) : Nat := x &&& y ^^^ (x &&& z) ^^^ (y &&& z)

/-- The 64 SHA-256 round constants. -/
def shaK : List Nat :=
  [1116352408, 1899447441, 3049323471, 3921009573, 961987163,
   1508970993, 2453635748, 2870763221, 3624381080, 310598401,
   607225278, 1426881987, 1925078388, 2162078206, 2614888103,
   3248222580, 3835390401, 4022224774, 264347078, 604807628,
   770255983, 1249150122, 1555081692, 1996064986, 2554220882,
   2821834349, 2952996808, 3210313671, 3336571891, 3584528711,
   113926993, 338241895, 666307205, 773529912, 1294757372,
   1396182291, 1695183700, 1986661051, 2177026350, 2456956037,
   2730485921, 2820302411, 3259730800, 3345764771, 3516065817,
   3600352804, 4094571909, 275423344, 430227734, 506948616,
   659060556, 883997877, 958139571, 1322822218, 1537002063,
   1747873779, 1955562222, 2024104815, 2227730452, 2361852424,
   2428436474, 2756734187, 3204031479, 3329325298]

/-- The SHA-256 initial hash value. -/
def shaH0 : List Nat :=
  [1779033703, 3144134277, 1013904242, 2773480762,
   1359893119, 2600822924, 528734635, 1541459225]

/-- Big-endian 8-byte rendering of the bit length. -/
def be64 (n : Nat) : List Nat :=
  [n / 2 ^ 56 % 256, n / 2 ^ 48 % 256, n / 2 ^ 40 % 256, n / 2 ^ 32 % 256,
   n / 2 ^ 24 % 256, n / 2 ^ 16 % 256, n / 2 ^ 8 % 256, n % 256]

/-- Big-endian 4-byte rendering of a 32-bit word. -/
def be32 (n : Nat) : List Nat :=
  [n / 2 ^ 24 % 256, n / 2 ^ 16 % 256, n / 2 ^ 8 % 256, n % 256]

/-- SHA-256 message padding: append `0x80`, zeros to 56 mod 64, and the
big-endian 64-bit bit count. -/
def padMsg (m : List Nat) : List Nat :=
  m ++ 128 :: List.replicate ((119 - m.length % 64) % 64) 0 ++ be64 (8 * m.length)

/-- Split a byte sequence into 64-byte chunks; structural recursion on a
fuel argument so the kernel can evaluate it (each step consumes at least
one byte, so `l.length` fuel always suffices). -/
def chunks64Fuel : Nat → List Nat → List (List Nat)
  | 0, _ => []
  | _, [] => []
  | n + 1, a :: l => (a :: l).take 64 :: chunks64Fuel n ((a :: l).drop 64)

/-- Split a byte sequence into 64-byte chunks. -/
def chunks64 (l : List Nat) : List (List Nat) :=
  chunks64Fuel l.length l

/-- Combine bytes into big-endian 32-bit words. -/
def toWords : List Nat → List Nat
  | a :: b :: c :: d :: rest => (((a * 256 + b) * 256 + c) * 256 + d) :: toWords rest
  | _ => []

/-- One newly scheduled word, from the last 16 words of the accumulated
schedule. -/
def newWord (acc : List Nat) : Nat :=
  add32
    (add32 (ssig1 (acc.getD (acc.length - 2) 0)) (acc.getD (acc.length - 7) 0))
    (add32 (ssig0 (acc.getD (acc.length - 15) 0)) (acc.getD (acc.length - 16) 0))

/-- Extend the message schedule by `n` further words. -/
def extendSchedule (acc : List Nat) : Nat → List Nat
  | 0 => acc
  | n + 1 => extendSchedule (acc ++ [newWord acc]) n

/-- One SHA-256 round on the eight working registers. -/
def shaRound (st : Nat × Nat × Nat × Nat × Nat × Nat × Nat × Nat) (kw : Nat × Nat) :
    Nat × Nat × Nat × Nat × Nat × Nat × Nat × Nat :=
  match st with
  | (a, b, c, d, e, f, g, h) =>
    let t1 := add32 h (add32 (bsig1 e) (add32 (chF e f g) (add32 kw.1 kw.2)))
    let t2 := add32 (bsig0 a) (majF a b c)
    (add32 t1 t2, a, b, c, add32 d t1, e, f, g)

/-- SHA-256 compression of one 64-byte chunk into the hash state. -/
def compress (h : List Nat) (chunk : List Nat) : List Nat :=
  let w := extendSchedule (toWords chunk) 48
  let init : Nat × Nat × Nat × Nat × Nat × Nat × Nat × Nat :=
    (h.getD 0 0, h.getD 1 0, h.getD 2 0, h.getD 3 0,
     h.getD 4 0, h.getD 5 0, h.getD 6 0, h.getD 7 0)
  let r := (shaK.zip w).foldl shaRound init
  [add32 (h.getD 0 0) r.1, add32 (h.getD 1 0) r.2.1,
   add32 (h.getD 2 0) r.2.2.1, add32 (h.getD 3 0) r.2.2.2.1,
   add32 (h.getD 4 0) r.2.2.2.2.1, add32 (h.getD 5 0) r.2.2.2.2.2.1,
   add32 (h.getD 6 0) r.2.2.2.2.2.2.1, add32 (h.getD 7 0) r.2.2.2.2.2.2.2]

/-- SHA-256 digest of a byte sequence, as 32 bytes. -/
def sha256 (m : List Nat) : List Nat :=
  ((chunks64 (padMsg m)).foldl compress shaH0).flatMap be32

/-- Lowercase-hex SHA-256 digest of a string's bytes: the source's
`Hash::StringToString< Hash::Sha256 >`. -/
def hexSha256 (s : String) : String :=
  hexOfBytes (sha256 (strBytes s))

/-! ## HMAC-SHA256

Modelled from the spec: the external hashing library's
`hmac(key, message) -> bytes` primitive (RFC 2104 with SHA-256 and a
64-byte block size, as selected by `SHA256_BLOCK_SIZE` in the source). -/

/-- HMAC-SHA256 of a message under a key, both byte sequences. -/
def hmacSha256 (key msg : List Nat) : List Nat :=
  let k0 := if 64 < key.length then sha256 key else key
  let kp := k0 ++ List.replicate (64 - k0.length) 0
  sha256 (kp.map (fun b => b ^^^ 92) ++ sha256 (kp.map (fun b => b ^^^ 54) ++ msg))

/-! ## The repository's `Split` helper

`SystemAbstractions::Split` (duplicated verbatim in S3.cpp): break a
string at each delimiter occurrence; a trailing delimiter yields no
final empty piece (the loop stops when the remainder is empty), and the
empty string yields no pieces at all. -/

/-- `Split` at the character level: the loop of the source's `Split`. -/
def splitD (d : Char) : List Char → List (List Char)
  | [] => []
  | c :: cs =>
    if c = d then [] :: splitD d cs
    else
      match splitD d cs with
      | [] => [[c]]
      | h :: t => (c :: h) :: t

/-- The source's `Split` on strings. -/
def splitS (s : String) (d : Char) : List String :=
  (splitD d s.data).map String.mk

/-! ## Signer: MakeStringToSign -/

/-- The algorithm identifier `HASH_ALGORITHM` of SignApi.cpp. -/
def hashAlgorithm : String := "AWS4-HMAC-SHA256"

/-- The loop of `MakeStringToSign`: the timestamp taken from the first
line whose first 11 characters are `x-amz-date:`, or the empty string
when no such line exists. -/
def findDate : List String → String
  | [] => ""
  | l :: ls => if l.take 11 = "x-amz-date:" then l.drop 11 else findDate ls

/-- The first line of a canonical request whose first 11 characters are
`x-amz-date:`, if any. -/
def findDateLine : List String → Option String
  | [] => none
  | l :: ls => if l.take 11 = "x-amz-date:" then some l else findDateLine ls

/-- `Aws::SignApi::MakeStringToSign` (SignApi.cpp lines 192-211). -/
def MakeStringToSign (region service canonicalRequest : String) : String :=
  let dateTime := findDate (splitS canonicalRequest '\n')
  hashAlgorithm ++ "\n" ++ dateTime ++ "\n" ++ dateTime.take 8 ++ "/" ++ region
    ++ "/" ++ service ++ "/aws4_request\n" ++ hexSha256 canonicalRequest

/-! ## Signer: MakeAuthorization

`Aws::SignApi::MakeAuthorization` (SignApi.cpp lines 213-263) indexes
into `Split` results without bounds checks
(`Split(stringToSign, '\n')[2]`, credential-scope parts `[0]`..`[3]`,
and `lines[lines.size() - 2]`).  The embedding returns `none` exactly
when one of those vector accesses would be out of range, and otherwise
the string the source builds. -/

/-- `Aws::SignApi::MakeAuthorization`, with explicit range checks for
each unchecked vector index of the source. -/
def MakeAuthorization (stringToSign canonicalRequest accessKeyId accessKeySecret :
    String) : Option String :=
  match (splitS stringToSign '\n').get? 2 with
  | none => none
  | some credentialScope =>
    let parts := splitS credentialScope '/'
    match parts.get? 0, parts.get? 1, parts.get? 2, parts.get? 3 with
    | some date, some region, some service, some terminationString =>
      let signingKey :=
        hmacSha256
          (hmacSha256
            (hmacSha256
              (hmacSha256 (strBytes ("AWS4" ++ accessKeySecret)) (strBytes date))
              (strBytes region))
            (strBytes service))
          (strBytes terminationString)
      let signature := hexOfBytes (hmacSha256 signingKey (strBytes stringToSign))
      let canonicalRequestLines := splitS canonicalRequest '\n'
      if 2 ≤ canonicalRequestLines.length then
        match canonicalRequestLines.get? (canonicalRequestLines.length - 2) with
        | none => none
        | some signedHeaders =>
          some (hashAlgorithm ++ " Credential=" ++ accessKeyId ++ "/"
            ++ credentialScope ++ ", SignedHeaders=" ++ signedHeaders
            ++ ", Signature=" ++ signature)
      else none
    | _, _, _, _ => none

/-- The string-to-sign of the documented IAM ListUsers example
(SignApiTests.cpp, `MakeAuthorizationTestCaseFromDocumentation`). -/
def docStringToSign : String :=
  "AWS4-HMAC-SHA256\n20150830T123600Z\n20150830/us-east-1/iam/aws4_request\nf536975d06c0309214f805bb90ccff089219ecd68b2577efef23edd43b7e1a59"

/-- The canonical request of the documented IAM ListUsers example. -/
def docCanonicalRequest : String :=
  "GET\n/\nAction=ListUsers&Version=2010-05-08\ncontent-type:application/x-www-form-urlencoded; charset=utf-8\nhost:iam.amazonaws.com\nx-amz-date:20150830T123600Z\n\ncontent-type;host;x-amz-date\ne3b0c44298fc1c149afbf4c8996fb92427ae41e4649b934ca495991b7852b855"

/-! ## Canonicalizer

`Aws::SignApi::ConstructCanonicalRequest` (SignApi.cpp lines 64-190)
parses the raw request with the external `Http::Server` /
`MessageHeaders` libraries and re-encodes path and query with the
external `Uri` library.  Those collaborators are out of scope for the
repository (spec section 1), so they are modelled from the spec; the
canonicalization steps themselves are embedded from the source. -/

/-- ASCII space or horizontal tab — the optional whitespace around an
HTTP header value. -/
def isWSb (c : Char) : Bool := c = ' ' || c = '\t'

/-- Drop leading whitespace. -/
def trimLeftWS (l : List Char) : List Char := l.dropWhile (fun c => isWSb c)

/-- Drop trailing whitespace. -/
def trimRightWS : List Char → List Char
  | [] => []
  | c :: cs =>
    if (trimRightWS cs).isEmpty && isWSb c then [] else c :: trimRightWS cs

/-- No two consecutive characters are both spaces. -/
def noTwoSpaces : List Char → Bool
  | a :: b :: r => !(a == ' ' && b == ' ') && noTwoSpaces (b :: r)
  | _ => true

/-- The first character, when present, is not whitespace. -/
def firstNotWS : List Char → Bool
  | [] => true
  | c :: _ => !isWSb c

/-- The last character, when present, is not whitespace. -/
def lastNotWS : List Char → Bool
  | [] => true
  | [c] => !isWSb c
  | _ :: c :: r => lastNotWS (c :: r)

/-- Modelled from the spec: the HTTP parser strips the optional
whitespace around each header value (the transport-layer contract of
spec sections 1 and 4.1). -/
def trimOWS (s : String) : String := String.mk (trimRightWS (trimLeftWS s.data))

/-- The loop of `CanonicalizeSpaces` (SignApi.cpp lines 43-58): copy
characters, emitting at most one space per run of spaces.  The flag is
the source's `lastCharWasSpace`. -/
def collapseGo : Bool → List Char → List Char
  | _, [] => []
  | lastWasSpace, c :: cs =>
    if c = ' ' then
      if lastWasSpace then collapseGo true cs else ' ' :: collapseGo true cs
    else c :: collapseGo false cs

/-- `CanonicalizeSpaces` (SignApi.cpp lines 43-58): replace each run of
two or more spaces by a single space. -/
def CanonicalizeSpaces (s : String) : String := String.mk (collapseGo false s.data)

/-- The structured request delivered by the HTTP parser. -/
structure HttpRequest where
  method : String
  target : String
  headers : List (String × String)
  body : String
deriving DecidableEq

/-- Byte-wise lexicographic strict comparison of character lists —
`std::string::operator<`. -/
def lexLtL : List Char → List Char → Bool
  | [], [] => false
  | [], _ :: _ => true
  | _ :: _, [] => false
  | a :: as, b :: bs =>
    if a.toNat < b.toNat then true
    else if b.toNat < a.toNat then false
    else lexLtL as bs

/-- Byte-wise lexicographic strict comparison of strings. -/
def strLt (a b : String) : Bool := lexLtL a.data b.data

/-- Byte-wise lexicographic non-strict comparison of strings. -/
def strLe (a b : String) : Bool := strLt a b || a == b

/-- Modelled from the spec: one header line, split at the first colon
into a name and a whitespace-trimmed value. -/
def parseHeaderLine (line : String) : Option (String × String) :=
  if String.mk (line.data.takeWhile (· ≠ ':')) = "" then none
  else if (line.data.dropWhile (· ≠ ':')).isEmpty then none
  else some (String.mk (line.data.takeWhile (· ≠ ':')),
    trimOWS (String.mk ((line.data.dropWhile (· ≠ ':')).drop 1)))

/-- Modelled from the spec: a valid request line is three space-joined
parts, the last starting with the protocol identifier. -/
def parseRequestLine (line : String) : Option (String × String) :=
  match splitS line ' ' with
  | [m, t, v] => if m ≠ "" ∧ t ≠ "" ∧ v.take 5 = "HTTP/" then some (m, t) else none
  | _ => none

/-- Split a character list at the first occurrence of a separator
sequence, when present. -/
def splitFirstSub (sep : List Char) : List Char → Option (List Char × List Char)
  | [] => none
  | c :: cs =>
    if sep.isPrefixOf (c :: cs) then some ([], (c :: cs).drop sep.length)
    else (splitFirstSub sep cs).map (fun pr => (c :: pr.1, pr.2))

/-- Split at every occurrence of a separator sequence; each step
consumes at least one character, so `l.length` fuel always suffices. -/
def splitOnListFuel (sep : List Char) : Nat → List Char → List (List Char)
  | 0, l => [l]
  | n + 1, l =>
    match splitFirstSub sep l with
    | none => [l]
    | some (pre, post) => pre :: splitOnListFuel sep n post

/-- Split a character list at every occurrence of a separator
sequence. -/
def splitOnList (sep l : List Char) : List (List Char) :=
  splitOnListFuel sep l.length l

/-- Parse every header line, failing when any one of them is
malformed. -/
def parseHeaders : List String → Option (List (String × String))
  | [] => some []
  | l :: ls =>
    match parseHeaderLine l, parseHeaders ls with
    | some h, some t => some (h :: t)
    | _, _ => none

/-- Modelled from the spec: `Http::Server::ParseRequest` — the raw
message is a request line, header lines, a blank line and the body
(spec section 4.1); an unparsable message yields no request. -/
def parseRequest (raw : String) : Option HttpRequest :=
  match splitOnList "\r\n\r\n".data raw.data with
  | headPart :: r1 :: rest =>
    match (splitOnList "\r\n".data headPart).map String.mk with
    | reqLine :: headerLines =>
      match parseRequestLine reqLine, parseHeaders headerLines with
      | some mt, some hs =>
        some ⟨mt.1, mt.2, hs,
          String.intercalate "\r\n\r\n" ((r1 :: rest).map String.mk)⟩
      | _, _ => none
    | [] => none
  | _ => none

/-- Value of a hexadecimal digit character. -/
def hexVal (c : Char) : Option Nat :=
  if '0' ≤ c ∧ c ≤ '9' then some (c.toNat - 48)
  else if 'A' ≤ c ∧ c ≤ 'F' then some (c.toNat - 55)
  else if 'a' ≤ c ∧ c ≤ 'f' then some (c.toNat - 87)
  else none

/-- Modelled from the spec: percent-decode a component into raw bytes
(spec section 4.1 steps 2-3). -/
def pctDecodeBytes : List Char → List Nat
  | [] => []
  | '%' :: h1 :: h2 :: rest =>
    match hexVal h1, hexVal h2 with
    | some a, some b => (16 * a + b) :: pctDecodeBytes rest
    | _, _ => 37 :: pctDecodeBytes (h1 :: h2 :: rest)
  | c :: rest => c.toNat :: pctDecodeBytes rest

/-- The strict RFC 3986 unreserved bytes: letters, digits, `-._~`. -/
def isUnreservedByte (b : Nat) : Bool :=
  (65 ≤ b && b ≤ 90) || (97 ≤ b && b ≤ 122) || (48 ≤ b && b ≤ 57)
    || b = 45 || b = 46 || b = 95 || b = 126

/-- Uppercase hexadecimal digit for a value below 16. -/
def hexDigitUpper (n : Nat) : Char :=
  if n < 10 then Char.ofNat (48 + n) else Char.ofNat (55 + n)

/-- Modelled from the spec: strict re-encoding — unreserved bytes kept,
every other byte escaped as uppercase `%XX` (spec section 4.1 step 2). -/
def pctEncode (bs : List Nat) : List Char :=
  bs.flatMap fun b =>
    if isUnreservedByte b then [Char.ofNat b]
    else ['%', hexDigitUpper (b / 16), hexDigitUpper (b % 16)]

/-- Modelled from the spec: percent-decode then strictly re-encode one
path segment, query name or query value. -/
def encodeComponent (s : String) : String :=
  String.mk (pctEncode (pctDecodeBytes s.data))

/-- Modelled from the spec: collapse `.`/`..` segments and duplicate
slashes (spec section 4.1 step 2). -/
def normalizeSegments (segs : List String) : List String :=
  segs.foldl
    (fun acc s =>
      if s = "." then acc
      else if s = ".." then acc.dropLast
      else if s = "" then acc
      else acc ++ [s])
    []

/-- Modelled from the spec: the canonical URI line — the target's path
part, each segment decoded and strictly re-encoded, path-normalized;
the empty path renders as `/`. -/
def canonicalUriOf (target : String) : String :=
  let path := String.mk (target.data.takeWhile (· ≠ '?'))
  "/" ++ String.intercalate "/" (normalizeSegments ((splitS path '/').map encodeComponent))

/-- Split one `name[=value]` query parameter at its first `=`
(SignApi.cpp lines 98-108). -/
def splitParam (p : String) : String × String :=
  (String.mk (p.data.takeWhile (· ≠ '=')),
   String.mk ((p.data.dropWhile (· ≠ '=')).drop 1))

/-- The comparator of the query-parameter sort (SignApi.cpp lines
112-123): lexicographic first by name, ties broken by value. -/
def qOrder (a b : String × String) : Prop :=
  strLt a.1 b.1 = true ∨ (a.1 = b.1 ∧ strLe a.2 b.2 = true)

instance : DecidableRel qOrder := fun a b =>
  inferInstanceAs (Decidable (strLt a.1 b.1 = true ∨ (a.1 = b.1 ∧ strLe a.2 b.2 = true)))

/-- The query-parameter sort (SignApi.cpp lines 109-124).  `std::sort`
with this strict-weak comparator produces a `qOrder`-sorted permutation
of the input; since `qOrder`-equivalent pairs are equal, that sorted
permutation is unique, so insertion sort is an exact embedding. -/
def sortQueryPairs (ps : List (String × String)) : List (String × String) :=
  ps.insertionSort qOrder

/-- Emit the sorted pairs as `name=value` joined by `&` (SignApi.cpp
lines 125-133). -/
def canonQueryOfPairs (ps : List (String × String)) : String :=
  String.intercalate "&" ((sortQueryPairs ps).map (fun p => p.1 ++ "=" ++ p.2))

/-- The query parameters of a raw query string: split on `&`, split each
at its first `=`, decode and strictly re-encode names and values
independently (the encoding step is modelled from spec section 4.1
step 3; the splitting is SignApi.cpp lines 92-108). -/
def queryStringPairs (q : String) : List (String × String) :=
  (splitS q '&').map fun p =>
    ((encodeComponent (splitParam p).1), (encodeComponent (splitParam p).2))

/-- The canonical query line: empty when the target has no `?`,
otherwise the encoded, sorted, re-joined parameters. -/
def canonicalQueryOf (target : String) : String :=
  if target.data.contains '?' then
    canonQueryOfPairs
      (queryStringPairs (String.mk ((target.data.dropWhile (· ≠ '?')).drop 1)))
  else ""

/-- ASCII lower-casing of one character (`SystemAbstractions::ToLower`
acts per byte). -/
def lowerChar (c : Char) : Char :=
  if 65 ≤ c.toNat ∧ c.toNat ≤ 90 then Char.ofNat (c.toNat + 32) else c

/-- ASCII lower-casing of a string. -/
def lowerStr (s : String) : String := String.mk (s.data.map lowerChar)

/-- Insert a key into a sorted duplicate-free key list — the effect of
`headersByName[...]` on the `std::map` key set. -/
def insertKey (n : String) : List String → List String
  | [] => [n]
  | k :: t =>
    if strLt n k then n :: k :: t
    else if n = k then k :: t
    else k :: insertKey n t

/-- All keys of the map, sorted and duplicate-free. -/
def sortKeys (l : List String) : List String :=
  l.foldl (fun acc n => insertKey n acc) []

/-- The sorted, duplicate-free, lower-cased header names of the
canonical header block and signed-header list (SignApi.cpp lines
138-167: grouping under a `std::map` keyed by the lower-cased name,
followed by a sort that is a no-op on the already-sorted keys). -/
def canonicalHeaderNames (hs : List (String × String)) : List String :=
  sortKeys (hs.map (fun h => lowerStr h.1))

/-- The space-canonicalized values grouped under one lower-cased name,
in original order (`std::map` preserves per-key insertion order of the
value vectors; SignApi.cpp lines 142-145). -/
def headerValuesFor (hs : List (String × String)) (n : String) : List String :=
  hs.filterMap fun h =>
    if lowerStr h.1 = n then some (CanonicalizeSpaces h.2) else none

/-- The canonical header block: one `name:value1,value2` line per name
(SignApi.cpp lines 168-170). -/
def headerBlock (hs : List (String × String)) : String :=
  String.join ((canonicalHeaderNames hs).map fun n =>
    n ++ ":" ++ String.intercalate "," (headerValuesFor hs n) ++ "\n")

/-- The signed-header list: names joined by `;` (SignApi.cpp lines
174-182). -/
def signedHeadersLine (hs : List (String × String)) : String :=
  String.intercalate ";" (canonicalHeaderNames hs)

/-- The canonical request built from a parsed request: the six sections
of SignApi.cpp lines 70-186. -/
def buildCanonical (r : HttpRequest) : String :=
  r.method ++ "\n"
    ++ canonicalUriOf r.target ++ "\n"
    ++ canonicalQueryOf r.target ++ "\n"
    ++ headerBlock r.headers ++ "\n"
    ++ signedHeadersLine r.headers ++ "\n"
    ++ hexSha256 r.body

/-- `Aws::SignApi::ConstructCanonicalRequest` (SignApi.cpp lines
64-190): the empty string when the raw request does not parse,
otherwise the canonical request. -/
def ConstructCanonicalRequest (raw : String) : String :=
  match parseRequest raw with
  | none => ""
  | some r => buildCanonical r

/-! ## XML Transcoder

`XmlToJson` (S3.cpp lines 749-856): a single forward scan over the
document text with a state machine and a stack of pointers into the
tree being built.  The C++ stack of `Json::Value*` pointers always
points along one root-to-current path, so it is embedded as a stack of
paths (each entry the full path of the corresponding pointer); writing
through a pointer is `setNode` at that path.  The embedding returns
`none` exactly when a pointer dereference would miss (a path that no
longer resolves), which claim C9 proves unreachable. -/

/-- A generic tree value: the subset of `Json::Value` the transcoder
builds (null, string, array, object). -/
inductive JVal where
  | nullV : JVal
  | strV : String → JVal
  | arrV : List JVal → JVal
  | objV : List (String × JVal) → JVal

/-- Field lookup in an object, first match. -/
def lookupF : List (String × JVal) → String → Option JVal
  | [], _ => none
  | (k, v) :: t, n => if k = n then some v else lookupF t n

/-- Replace the value under a key, appending the key when absent — the
effect of `Json::Value::operator[]` assignment on an object. -/
def setF : List (String × JVal) → String → JVal → List (String × JVal)
  | [], n, v => [(n, v)]
  | (k, w) :: t, n, v => if k = n then (k, v) :: t else (k, w) :: setF t n v

/-- Replace the element at an index, when in range. -/
def setIdx : List JVal → Nat → JVal → List JVal
  | [], _, _ => []
  | _ :: t, 0, v => v :: t
  | x :: t, i + 1, v => x :: setIdx t i v

/-- One step of a path into the tree: an object field or an array
index. -/
inductive PStep where
  | fld : String → PStep
  | idx : Nat → PStep

/-- Resolve a path to the node it designates, when it exists. -/
def getNode : JVal → List PStep → Option JVal
  | v, [] => some v
  | JVal.objV fs, PStep.fld n :: p =>
    match lookupF fs n with
    | some v => getNode v p
    | none => none
  | JVal.arrV es, PStep.idx i :: p =>
    match es[i]? with
    | some v => getNode v p
    | none => none
  | _, _ => none

/-- Replace the node a path designates, when it exists — writing
through a C++ pointer into the tree. -/
def setNode : JVal → List PStep → JVal → Option JVal
  | _, [], nv => some nv
  | JVal.objV fs, PStep.fld n :: p, nv =>
    match lookupF fs n with
    | some v =>
      match setNode v p nv with
      | some v2 => some (JVal.objV (setF fs n v2))
      | none => none
    | none => none
  | JVal.arrV es, PStep.idx i :: p, nv =>
    match es[i]? with
    | some v =>
      match setNode v p nv with
      | some v2 => some (JVal.arrV (setIdx es i v2))
      | none => none
    | none => none
  | _, _, _ => none

/-- The transcoder's states (S3.cpp lines 754-763). -/
inductive XState where
  | header
  | document
  | tagBegin
  | tag
  | tagBeginOrContent
  | content
  | tagEnd
  | xend

/-- The transcoder's machine: current state, accumulated text, the
stack of container paths (`std::stack< Json::Value* > elements`), and
the tree built so far. -/
structure XmlM where
  st : XState
  data : List Char
  stack : List (List PStep)
  json : JVal

/-- The fields of the parent container, after the C++ ensures it is an
object (`if parent.GetType() != Object then parent = Object({})`,
S3.cpp lines 797-799): a non-object parent is replaced by an empty
object, so only its fields (none) survive. -/
def parentFields : JVal → List (String × JVal)
  | JVal.objV fs => fs
  | _ => []

/-- The existing elements of the array slot under a tag (S3.cpp lines
804-806: a non-array slot is replaced by an empty array). -/
def arrElems (fs0 : List (String × JVal)) (tag : String) : List JVal :=
  match lookupF fs0 tag with
  | some (JVal.arrV es) => es
  | _ => []

/-- The parent's fields after `parent[data]` creates the named slot
when absent (S3.cpp line 801). -/
def objFields (fs0 : List (String × JVal)) (tag : String) : List (String × JVal) :=
  match lookupF fs0 tag with
  | some _ => fs0
  | none => fs0 ++ [(tag, JVal.nullV)]

/-- Handling of `>` in state `Tag` (S3.cpp lines 790-812): ensure the
parent is an object, create or extend the child slot named by the
accumulated tag — an array slot receiving a fresh null element when the
tag is in the caller's array set, a plain (possibly pre-existing) slot
otherwise — and push the new current element. -/
def openTag (arr : List String) (m : XmlM) : Option XmlM :=
  match getNode m.json (m.stack.headD []) with
  | none => none
  | some parent =>
    if String.mk m.data ∈ arr then
      match setNode m.json (m.stack.headD [])
          (JVal.objV (setF (parentFields parent) (String.mk m.data)
            (JVal.arrV (arrElems (parentFields parent) (String.mk m.data)
              ++ [JVal.nullV])))) with
      | some j =>
        some (XmlM.mk XState.tagBeginOrContent []
          ((m.stack.headD [] ++ [PStep.fld (String.mk m.data),
            PStep.idx (arrElems (parentFields parent) (String.mk m.data)).length])
            :: m.stack) j)
      | none => none
    else
      match setNode m.json (m.stack.headD [])
          (JVal.objV (objFields (parentFields parent) (String.mk m.data))) with
      | some j =>
        some (XmlM.mk XState.tagBeginOrContent []
          ((m.stack.headD [] ++ [PStep.fld (String.mk m.data)]) :: m.stack) j)
      | none => none

/-- One character of the scan (the `switch` of S3.cpp lines 767-853). -/
def step (arr : List String) (m : XmlM) (c : Char) : Option XmlM :=
  match m.st with
  | XState.header => some (if c = '>' then { m with st := XState.document } else m)
  | XState.document => some (if c = '>' then { m with st := XState.tagBegin } else m)
  | XState.tagBegin =>
    some (if c = '<' then { m with st := XState.tag, data := [] } else m)
  | XState.tag =>
    if c = '/' then some { m with st := XState.tagEnd }
    else if c = '>' then openTag arr m
    else some { m with data := m.data ++ [c] }
  | XState.tagBeginOrContent =>
    some (if c = '<' then { m with st := XState.tag }
      else { m with st := XState.content, data := m.data ++ [c] })
  | XState.content =>
    if c = '<' then
      match setNode m.json (m.stack.headD []) (JVal.strV (String.mk m.data)) with
      | some j => some { m with st := XState.tagEnd, json := j }
      | none => none
    else some { m with data := m.data ++ [c] }
  | XState.tagEnd =>
    if c = '>' then
      match m.stack with
      | [] => some { m with st := XState.xend }
      | _ :: t => some { m with st := XState.tagBegin, stack := t }
    else some m
  | XState.xend => some m

/-- The machine's initial state: an empty object, an empty stack. -/
def initM : XmlM := XmlM.mk XState.header [] [] (JVal.objV [])

/-- The scan: one step per character, a single forward pass. -/
def runXml (arr : List String) : List Char → XmlM → Option XmlM
  | [], m => some m
  | c :: cs, m =>
    match step arr m c with
    | some m2 => runXml arr cs m2
    | none => none

/-- `XmlToJson` (S3.cpp lines 749-856): the tree left at the end of the
single forward scan. -/
def XmlToJson (xml : String) (arr : List String) : Option JVal :=
  match runXml arr xml.data initM with
  | some m => some m.json
  | none => none

/-- Resolve a path inside a transcoded document. -/
def xmlLookup (xml : String) (arr : List String) (path : List PStep) : Option JVal :=
  match XmlToJson xml arr with
  | some j => getNode j path
  | none => none

/-- The XML body of the `S3Tests.ListBuckets` unit test. -/
def listBucketsXml : String :=
  "<?xml version=\"1.0\" encoding=\"UTF-8\"?><ListAllMyBucketsResult xmlns=\"http://s3.amazonaws.com/doc/2006-03-01/\"><Owner><ID>12345</ID><DisplayName>alex</DisplayName></Owner><Buckets><Bucket><Name>foo</Name><CreationDate>2018-02-01T08:30:12.123Z</CreationDate></Bucket><Bucket><Name>bar</Name><CreationDate>2018-06-08T11:25:43.456Z</CreationDate></Bucket></Buckets></ListAllMyBucketsResult>"


/-- Consecutive stack entries are prefixes: the C++ pointer stack always
points along one root-to-current path. -/
def stackChain : List (List PStep) → Prop
  | [] => True
  | [_] => True
  | a :: b :: t => List.IsPrefix b a ∧ stackChain (b :: t)

/-- The machine invariant: the stack is a chain of paths and the
current path resolves in the tree. -/
def MInv (m : XmlM) : Prop :=
  stackChain m.stack ∧ (getNode m.json (m.stack.headD [])).isSome = true

/-- The FIPS 180-4 test vectors validating the SHA-256 model: the
digests of the empty message and of `abc`. -/
theorem sha256_test_vectors :
    hexSha256 "" = "e3b0c44298fc1c149afbf4c8996fb92427ae41e4649b934ca495991b7852b855"
    ∧ hexSha256 "abc" = "ba7816bf8f01cfea414140de5dae2223b00361a396177a9cb410ff61f20015ad" := by
  exact ⟨by decide, by decide⟩

/-- The `Split` embedding matches the source loop's behavior on the
boundary cases: a trailing delimiter adds no empty piece, a leading
delimiter does, and the empty string has no pieces. -/
theorem splitS_examples :
    splitS "a\nb" '\n' = ["a", "b"]
    ∧ splitS "a\n" '\n' = ["a"]
    ∧ splitS "\na" '\n' = ["", "a"]
    ∧ splitS "" '\n' = []
    ∧ splitS "a/b/c/d" '/' = ["a", "b", "c", "d"] := by
  exact ⟨by decide, by decide, by decide, by decide, by decide⟩

set_option maxRecDepth 10000 in
/-- The full canonicalizer reproduces the repository's
`SignApiTests.AmzUriEncodeQuery` unit-test output. -/
theorem constructCanonicalRequest_test_vector :
    ConstructCanonicalRequest
      "GET /?arg=foo+bar= HTTP/1.1\r\nHost:example.amazonaws.com\r\nX-Amz-Date:20150830T123600Z\r\n\r\n"
    = "GET\n/\narg=foo%2Bbar%3D\nhost:example.amazonaws.com\nx-amz-date:20150830T123600Z\n\nhost;x-amz-date\ne3b0c44298fc1c149afbf4c8996fb92427ae41e4649b934ca495991b7852b855" := by
  decide

/-! ## Lemmas about `splitD` and `findDate` -/

/-- Splitting a list that starts with a delimiter-free prefix followed
by a delimiter peels off exactly that prefix. -/
theorem splitD_append_delim (d : Char) (xs rest : List Char) (h : d ∉ xs) :
    splitD d (xs ++ d :: rest) = xs :: splitD d rest := by
  induction xs with
  | nil => simp [splitD]
  | cons c cs ih =>
    simp only [List.mem_cons, not_or] at h
    have hih := ih h.2
    show splitD d (c :: (cs ++ d :: rest)) = (c :: cs) :: splitD d rest
    simp only [splitD, if_neg (Ne.symm h.1)]
    rw [hih]

/-- `splitD` never returns the empty list on a nonempty input. -/
theorem splitD_ne_nil (d : Char) (c : Char) (cs : List Char) :
    splitD d (c :: cs) ≠ [] := by
  simp only [splitD]
  by_cases h : c = d
  · rw [if_pos h]; exact List.cons_ne_nil _ _
  · rw [if_neg h]
    cases splitD d cs with
    | nil => exact List.cons_ne_nil _ _
    | cons a b => exact List.cons_ne_nil _ _

/-- When no line matches the `x-amz-date:` test, the date loop leaves
the timestamp empty. -/
theorem findDate_eq_empty (ls : List String)
    (h : ∀ l ∈ ls, l.take 11 ≠ "x-amz-date:") : findDate ls = "" := by
  induction ls with
  | nil => rfl
  | cons l ls ih =>
    simp only [findDate, if_neg (h l (List.mem_cons_self l ls))]
    exact ih fun x hx => h x (List.mem_cons_of_mem l hx)

/-- The date loop extracts its timestamp from the first matching line. -/
theorem findDate_eq_of_find (ls : List String) (l : String)
    (h : findDateLine ls = some l) :
    findDate ls = l.drop 11 := by
  induction ls with
  | nil => simp [findDateLine] at h
  | cons a as ih =>
    by_cases ha : a.take 11 = "x-amz-date:"
    · rw [findDateLine, if_pos ha] at h
      cases h
      simp [findDate, ha]
    · rw [findDateLine, if_neg ha] at h
      simp only [findDate, if_neg ha]
      exact ih h

/-! ## Claims C1, C3, C5, C10 -/

/-- **C3.** For every region, service and canonical request in which no
newline-delimited line begins with `x-amz-date:`, `MakeStringToSign`
returns (it is a total function, so it never throws) the sentinel
string whose timestamp line is empty: the algorithm id, an empty line,
a credential scope whose date part is empty, and the digest.  The
second newline-delimited line of the result is the empty string, which
is how a caller can recognise the failure. -/
theorem C3_makeStringToSign_no_date (region service cr : String)
    (h : ∀ l ∈ splitS cr '\n', l.take 11 ≠ "x-amz-date:") :
    MakeStringToSign region service cr
      = "AWS4-HMAC-SHA256\n\n/" ++ region ++ "/" ++ service ++ "/aws4_request\n"
        ++ hexSha256 cr
    ∧ (splitS (MakeStringToSign region service cr) '\n').get? 1 = some "" := by
  have hdate : findDate (splitS cr '\n') = "" := findDate_eq_empty _ h
  have hmain : MakeStringToSign region service cr
      = "AWS4-HMAC-SHA256\n\n/" ++ region ++ "/" ++ service ++ "/aws4_request\n"
        ++ hexSha256 cr := by
    unfold MakeStringToSign
    rw [hdate]
    rfl
  refine ⟨hmain, ?_⟩
  rw [hmain]
  have hdata :
      ("AWS4-HMAC-SHA256\n\n/" ++ region ++ "/" ++ service ++ "/aws4_request\n"
        ++ hexSha256 cr).data
      = "AWS4-HMAC-SHA256".data
          ++ '\n' :: ([] ++ '\n'
            :: ("/" ++ region ++ "/" ++ service ++ "/aws4_request\n"
                ++ hexSha256 cr).data) := by
    simp [String.data_append]
  unfold splitS
  rw [hdata, splitD_append_delim _ _ _ (by decide),
    splitD_append_delim _ _ _ (by simp)]
  rfl

/-- Witness for C3 at a concrete canonical request without an
`x-amz-date` header line. -/
theorem C3_witness :
    MakeStringToSign "us-east-1" "iam" "GET\n/\n\nhost:example.com\n\nhost\nabc"
      = "AWS4-HMAC-SHA256\n\n/us-east-1/iam/aws4_request\n"
        ++ hexSha256 "GET\n/\n\nhost:example.com\n\nhost\nabc"
    ∧ (splitS
        (MakeStringToSign "us-east-1" "iam" "GET\n/\n\nhost:example.com\n\nhost\nabc")
        '\n').get? 1 = some "" := by
  have := C3_makeStringToSign_no_date "us-east-1" "iam"
    "GET\n/\n\nhost:example.com\n\nhost\nabc" (by decide)
  exact this

/-- **C5.** For every region, service and canonical request containing
an `x-amz-date:` header line, `MakeStringToSign` extracts the timestamp
from the first such line and returns the algorithm id, the timestamp,
the credential scope — the first 8 characters of the timestamp, the
region, the service and the terminator `aws4_request` joined by `/` —
and the lowercase-hex SHA-256 digest of the canonical request, joined
by newlines. -/
theorem C5_makeStringToSign (region service cr l : String)
    (h : findDateLine (splitS cr '\n') = some l) :
    MakeStringToSign region service cr
      = hashAlgorithm ++ "\n" ++ l.drop 11 ++ "\n"
        ++ ((l.drop 11).take 8 ++ "/" ++ region ++ "/" ++ service ++ "/"
            ++ "aws4_request")
        ++ "\n" ++ hexSha256 cr := by
  unfold MakeStringToSign
  rw [findDate_eq_of_find _ _ h]
  simp [String.append_assoc]

/-- Witness for C5 on a concrete canonical request with an
`x-amz-date` line. -/
theorem C5_witness :
    MakeStringToSign "us-east-1" "iam"
        "GET\n/\n\nhost:example.com\nx-amz-date:20150830T123600Z\n\nhost\nabc"
      = hashAlgorithm ++ "\n" ++ "20150830T123600Z" ++ "\n"
        ++ ("20150830" ++ "/" ++ "us-east-1" ++ "/" ++ "iam" ++ "/"
            ++ "aws4_request")
        ++ "\n"
        ++ hexSha256
            "GET\n/\n\nhost:example.com\nx-amz-date:20150830T123600Z\n\nhost\nabc" := by
  have := C5_makeStringToSign "us-east-1" "iam"
    "GET\n/\n\nhost:example.com\nx-amz-date:20150830T123600Z\n\nhost\nabc"
    "x-amz-date:20150830T123600Z" (by decide)
  simpa using this

/-- **C10.** Whenever the string-to-sign has at least three
newline-delimited lines, its third line splits into exactly four
`/`-separated parts, and the canonical request has at least two
newline-delimited lines, every unchecked sequence access of
`MakeAuthorization` is in range: the embedding's error branch (`none`)
is unreachable. -/
theorem C10_makeAuthorization_in_range (sts cr accessKeyId accessKeySecret : String)
    (h3 : 3 ≤ (splitS sts '\n').length)
    (h4 : (splitS ((splitS sts '\n').getD 2 "") '/').length = 4)
    (h2 : 2 ≤ (splitS cr '\n').length) :
    (MakeAuthorization sts cr accessKeyId accessKeySecret).isSome := by
  have hlen2 : 2 < (splitS sts '\n').length := by omega
  have hget2 : (splitS sts '\n').get? 2 = some ((splitS sts '\n').getD 2 "") := by
    rw [List.getD_eq_getD_get?, List.get?_eq_get hlen2]
    rfl
  have hp0 : (splitS ((splitS sts '\n').getD 2 "") '/').get? 0
      = some ((splitS ((splitS sts '\n').getD 2 "") '/').get ⟨0, by omega⟩) :=
    List.get?_eq_get _
  have hp1 : (splitS ((splitS sts '\n').getD 2 "") '/').get? 1
      = some ((splitS ((splitS sts '\n').getD 2 "") '/').get ⟨1, by omega⟩) :=
    List.get?_eq_get _
  have hp2 : (splitS ((splitS sts '\n').getD 2 "") '/').get? 2
      = some ((splitS ((splitS sts '\n').getD 2 "") '/').get ⟨2, by omega⟩) :=
    List.get?_eq_get _
  have hp3 : (splitS ((splitS sts '\n').getD 2 "") '/').get? 3
      = some ((splitS ((splitS sts '\n').getD 2 "") '/').get ⟨3, by omega⟩) :=
    List.get?_eq_get _
  have hlast : ((splitS cr '\n').get? ((splitS cr '\n').length - 2))
      = some ((splitS cr '\n').get ⟨(splitS cr '\n').length - 2, by omega⟩) :=
    List.get?_eq_get _
  simp only [MakeAuthorization, hget2, hp0, hp1, hp2, hp3, if_pos h2, hlast,
    Option.isSome_some]

/-- Witness for C10 at the documented example inputs. -/
theorem C10_witness :
    (MakeAuthorization docStringToSign docCanonicalRequest "AKIDEXAMPLE"
      "wJalrXUtnFEMI/K7MDENG+bPxRfiCYEXAMPLEKEY").isSome := by
  exact C10_makeAuthorization_in_range docStringToSign docCanonicalRequest
    "AKIDEXAMPLE" "wJalrXUtnFEMI/K7MDENG+bPxRfiCYEXAMPLEKEY"
    (by decide) (by decide) (by decide)

set_option maxRecDepth 100000 in
set_option maxHeartbeats 4000000 in
/-- **C1.** `MakeAuthorization` derives the signing key by four chained
HMAC-SHA256 operations — the first keyed by `AWS4` concatenated with
the secret — applied in order to the raw ASCII bytes of the date,
region, service and terminator taken from the credential scope (the
third newline-delimited line of the string-to-sign); computes the
signature as the lowercase-hex HMAC-SHA256 of the string-to-sign bytes
under that key; takes the signed-header list from the second-to-last
newline-delimited line of the canonical request; and assembles the
documented `Credential`/`SignedHeaders`/`Signature` value.  On the
documented IAM ListUsers example inputs it returns exactly the
Authorization value quoted in the spec. -/
theorem C1_makeAuthorization :
    (∀ sts cr accessKeyId accessKeySecret scope d r sv t sh,
      (splitS sts '\n').get? 2 = some scope →
      splitS scope '/' = [d, r, sv, t] →
      2 ≤ (splitS cr '\n').length →
      (splitS cr '\n').get? ((splitS cr '\n').length - 2) = some sh →
      MakeAuthorization sts cr accessKeyId accessKeySecret
        = some (hashAlgorithm ++ " Credential=" ++ accessKeyId ++ "/" ++ scope
            ++ ", SignedHeaders=" ++ sh ++ ", Signature="
            ++ hexOfBytes (hmacSha256
                (hmacSha256
                  (hmacSha256
                    (hmacSha256
                      (hmacSha256 (strBytes ("AWS4" ++ accessKeySecret))
                        (strBytes d))
                      (strBytes r))
                    (strBytes sv))
                  (strBytes t))
                (strBytes sts))))
    ∧ MakeAuthorization docStringToSign docCanonicalRequest "AKIDEXAMPLE"
        "wJalrXUtnFEMI/K7MDENG+bPxRfiCYEXAMPLEKEY"
      = some "AWS4-HMAC-SHA256 Credential=AKIDEXAMPLE/20150830/us-east-1/iam/aws4_request, SignedHeaders=content-type;host;x-amz-date, Signature=5d672d79c15b13162d9279b0855cfba6789a8edb4c82c400e06b5924a6f2b5d7" := by
  constructor
  · intro sts cr accessKeyId accessKeySecret scope d r sv t sh h2 hparts hlen hsh
    simp only [MakeAuthorization, h2, hparts, if_pos hlen, hsh]
    rfl
  · decide

/-- Witness for C1: the general conjunct applied at the documented
example inputs. -/
theorem C1_witness :
    MakeAuthorization docStringToSign docCanonicalRequest "AKIDEXAMPLE"
      "wJalrXUtnFEMI/K7MDENG+bPxRfiCYEXAMPLEKEY"
      = some (hashAlgorithm ++ " Credential=" ++ "AKIDEXAMPLE" ++ "/"
          ++ "20150830/us-east-1/iam/aws4_request"
          ++ ", SignedHeaders=" ++ "content-type;host;x-amz-date" ++ ", Signature="
          ++ hexOfBytes (hmacSha256
              (hmacSha256
                (hmacSha256
                  (hmacSha256
                    (hmacSha256
                      (strBytes ("AWS4" ++ "wJalrXUtnFEMI/K7MDENG+bPxRfiCYEXAMPLEKEY"))
                      (strBytes "20150830"))
                    (strBytes "us-east-1"))
                  (strBytes "iam"))
                (strBytes "aws4_request"))
              (strBytes docStringToSign))) := by
  exact C1_makeAuthorization.1 docStringToSign docCanonicalRequest "AKIDEXAMPLE"
    "wJalrXUtnFEMI/K7MDENG+bPxRfiCYEXAMPLEKEY"
    "20150830/us-east-1/iam/aws4_request" "20150830" "us-east-1" "iam"
    "aws4_request" "content-type;host;x-amz-date"
    (by decide) (by decide) (by decide) (by decide)

/-! ## Lemmas about the byte-wise string order -/

/-- Characters with equal code points are equal. -/
theorem charToNat_inj {a b : Char} (h : a.toNat = b.toNat) : a = b := by
  have ha := Char.ofNat_toNat a
  rw [h, Char.ofNat_toNat] at ha
  exact ha.symm

theorem lexLtL_irrefl (l : List Char) : lexLtL l l = false := by
  induction l with
  | nil => rfl
  | cons c cs ih => simp [lexLtL, ih]

theorem lexLtL_asymm (a : List Char) : ∀ b, lexLtL a b = true → lexLtL b a = false := by
  induction a with
  | nil =>
    intro b h
    cases b with
    | nil => simp [lexLtL] at h
    | cons x xs => rfl
  | cons c cs ih =>
    intro b h
    cases b with
    | nil => simp [lexLtL] at h
    | cons d ds =>
      simp only [lexLtL] at h ⊢
      rcases Nat.lt_trichotomy c.toNat d.toNat with h1 | h1 | h1
      · rw [if_neg (by omega), if_pos h1]
      · rw [if_neg (by omega), if_neg (by omega)] at h ⊢
        exact ih ds h
      · rw [if_neg (by omega), if_pos h1] at h
        simp at h

theorem lexLtL_trans (a : List Char) :
    ∀ b c, lexLtL a b = true → lexLtL b c = true → lexLtL a c = true := by
  induction a with
  | nil =>
    intro b c hab hbc
    cases b with
    | nil => simp [lexLtL] at hab
    | cons x xs =>
      cases c with
      | nil => simp [lexLtL] at hbc
      | cons y ys => rfl
  | cons p ps ih =>
    intro b c hab hbc
    cases b with
    | nil => simp [lexLtL] at hab
    | cons q qs =>
      cases c with
      | nil => simp [lexLtL] at hbc
      | cons r rs =>
        simp only [lexLtL] at hab hbc ⊢
        rcases Nat.lt_trichotomy p.toNat q.toNat with h1 | h1 | h1 <;>
          rcases Nat.lt_trichotomy q.toNat r.toNat with h2 | h2 | h2
        all_goals first
          | (rw [if_pos (by omega)])
          | (rw [if_neg (by omega), if_pos (by omega)] at hab; simp at hab)
          | (rw [if_neg (by omega), if_pos (by omega)] at hbc; simp at hbc)
          | (rw [if_neg (by omega), if_neg (by omega)] at hab hbc ⊢
             exact ih qs rs hab hbc)

theorem lexLtL_trichotomy (a : List Char) :
    ∀ b, lexLtL a b = true ∨ a = b ∨ lexLtL b a = true := by
  induction a with
  | nil =>
    intro b
    cases b with
    | nil => right; left; rfl
    | cons x xs => left; rfl
  | cons c cs ih =>
    intro b
    cases b with
    | nil => right; right; rfl
    | cons d ds =>
      rcases Nat.lt_trichotomy c.toNat d.toNat with h1 | h1 | h1
      · left; simp [lexLtL, h1]
      · have hcd : c = d := charToNat_inj h1
        subst hcd
        rcases ih ds with h | h | h
        · left; simp [lexLtL, h]
        · right; left; rw [h]
        · right; right; simp [lexLtL, h]
      · right; right; simp [lexLtL, h1]

theorem strLt_irrefl (s : String) : strLt s s = false := lexLtL_irrefl s.data

theorem strLt_asymm {a b : String} (h : strLt a b = true) : strLt b a = false :=
  lexLtL_asymm a.data b.data h

theorem strLt_trans {a b c : String} (hab : strLt a b = true)
    (hbc : strLt b c = true) : strLt a c = true :=
  lexLtL_trans a.data b.data c.data hab hbc

theorem strLt_trichotomy (a b : String) :
    strLt a b = true ∨ a = b ∨ strLt b a = true := by
  rcases lexLtL_trichotomy a.data b.data with h | h | h
  · exact Or.inl h
  · exact Or.inr (Or.inl (String.ext h))
  · exact Or.inr (Or.inr h)

theorem strLe_antisymm {a b : String} (hab : strLe a b = true)
    (hba : strLe b a = true) : a = b := by
  simp only [strLe, Bool.or_eq_true, beq_iff_eq] at hab hba
  rcases hab with h1 | h1
  · rcases hba with h2 | h2
    · rw [strLt_asymm h1] at h2; cases h2
    · exact h2.symm
  · exact h1

theorem strLe_trans {a b c : String} (hab : strLe a b = true)
    (hbc : strLe b c = true) : strLe a c = true := by
  simp only [strLe, Bool.or_eq_true, beq_iff_eq] at hab hbc ⊢
  rcases hab with h1 | h1
  · rcases hbc with h2 | h2
    · exact Or.inl (strLt_trans h1 h2)
    · exact Or.inl (h2 ▸ h1)
  · exact h1 ▸ hbc

theorem strLe_total (a b : String) : strLe a b = true ∨ strLe b a = true := by
  simp only [strLe, Bool.or_eq_true, beq_iff_eq]
  rcases strLt_trichotomy a b with h | h | h
  · exact Or.inl (Or.inl h)
  · exact Or.inl (Or.inr h)
  · exact Or.inr (Or.inl h)

/-! ## Claim C7: the query-parameter sort -/

instance : IsTrans (String × String) qOrder := by
  constructor
  intro a b c hab hbc
  rcases hab with h1 | ⟨h1, h1v⟩ <;> rcases hbc with h2 | ⟨h2, h2v⟩
  · exact Or.inl (strLt_trans h1 h2)
  · exact Or.inl (h2 ▸ h1)
  · exact Or.inl (h1 ▸ h2)
  · exact Or.inr ⟨h1.trans h2, strLe_trans h1v h2v⟩

instance : IsAntisymm (String × String) qOrder := by
  constructor
  intro a b hab hba
  rcases hab with h1 | ⟨h1, h1v⟩
  · rcases hba with h2 | ⟨h2, h2v⟩
    · rw [strLt_asymm h1] at h2; cases h2
    · rw [h2] at h1; rw [strLt_irrefl] at h1; cases h1
  · rcases hba with h2 | ⟨h2, h2v⟩
    · rw [h1] at h2; rw [strLt_irrefl] at h2; cases h2
    · exact Prod.ext h1 (strLe_antisymm h1v h2v)

instance : IsTotal (String × String) qOrder := by
  constructor
  intro a b
  rcases strLt_trichotomy a.1 b.1 with h | h | h
  · exact Or.inl (Or.inl h)
  · rcases strLe_total a.2 b.2 with hv | hv
    · exact Or.inl (Or.inr ⟨h, hv⟩)
    · exact Or.inr (Or.inr ⟨h.symm, hv⟩)
  · exact Or.inr (Or.inl h)

/-- **C7.** The canonical query line is the input's name/value pairs
sorted lexicographically first by name and then by value (byte-wise
comparison), re-joined with `&`: the sort is a sorted permutation of
the input pairs, and the emitted line is invariant under any
re-ordering of the input pairs — equal-name ties are broken by
value, so permuted inputs always canonicalize identically. -/
theorem C7_query_sort :
    (∀ ps : List (String × String),
      List.Perm (sortQueryPairs ps) ps ∧ List.Sorted qOrder (sortQueryPairs ps))
    ∧ ∀ ps qs : List (String × String), List.Perm ps qs →
        canonQueryOfPairs ps = canonQueryOfPairs qs := by
  constructor
  · intro ps
    exact ⟨List.perm_insertionSort qOrder ps, List.sorted_insertionSort qOrder ps⟩
  · intro ps qs hperm
    have hsorteq : sortQueryPairs ps = sortQueryPairs qs := by
      refine List.eq_of_perm_of_sorted ?_ (List.sorted_insertionSort qOrder ps)
        (List.sorted_insertionSort qOrder qs)
      exact ((List.perm_insertionSort qOrder ps).trans hperm).trans
        (List.perm_insertionSort qOrder qs).symm
    unfold canonQueryOfPairs
    rw [hsorteq]

/-- Witness for C7: two permutations of the same pairs — including an
equal-name tie — canonicalize to the same line. -/
theorem C7_witness :
    canonQueryOfPairs [("b", "2"), ("a", "1"), ("b", "1")]
      = canonQueryOfPairs [("b", "1"), ("b", "2"), ("a", "1")] :=
  C7_query_sort.2 [("b", "2"), ("a", "1"), ("b", "1")]
    [("b", "1"), ("b", "2"), ("a", "1")] (by decide)

/-! ## Claim C6: header names in the canonical request -/

/-- Membership in an `insertKey` result. -/
theorem mem_insertKey (n x : String) (l : List String) :
    x ∈ insertKey n l ↔ x = n ∨ x ∈ l := by
  induction l with
  | nil => simp [insertKey]
  | cons k t ih =>
    unfold insertKey
    by_cases h1 : strLt n k = true
    · rw [if_pos h1]
      simp only [List.mem_cons] <;> tauto
    · rw [if_neg h1]
      by_cases h2 : n = k
      · rw [if_pos h2]
        subst h2
        simp only [List.mem_cons] <;> tauto
      · rw [if_neg h2]
        simp only [List.mem_cons, ih] <;> tauto

/-- `insertKey` preserves strict sortedness. -/
theorem insertKey_sorted (n : String) (l : List String)
    (h : List.Sorted (fun a b => strLt a b = true) l) :
    List.Sorted (fun a b => strLt a b = true) (insertKey n l) := by
  induction l with
  | nil => simp [insertKey]
  | cons k t ih =>
    rw [List.sorted_cons] at h
    unfold insertKey
    by_cases h1 : strLt n k = true
    · rw [if_pos h1]
      rw [List.sorted_cons]
      refine ⟨?_, List.sorted_cons.mpr h⟩
      intro x hx
      rcases List.mem_cons.mp hx with rfl | hx
      · exact h1
      · exact strLt_trans h1 (h.1 x hx)
    · rw [if_neg h1]
      by_cases h2 : n = k
      · rw [if_pos h2]
        exact List.sorted_cons.mpr h
      · rw [if_neg h2]
        rw [List.sorted_cons]
        refine ⟨?_, ih h.2⟩
        intro x hx
        rcases (mem_insertKey n x t).mp hx with rfl | hx
        · rcases strLt_trichotomy x k with h3 | h3 | h3
          · exact absurd h3 h1
          · exact absurd h3 h2
          · exact h3
        · exact h.1 x hx

/-- The fold of `insertKey` over a list produces a sorted key list. -/
theorem foldl_insertKey_sorted (l : List String) :
    ∀ acc, List.Sorted (fun a b => strLt a b = true) acc →
      List.Sorted (fun a b => strLt a b = true)
        (l.foldl (fun a n => insertKey n a) acc) := by
  induction l with
  | nil => intro acc h; exact h
  | cons x xs ih =>
    intro acc h
    exact ih (insertKey x acc) (insertKey_sorted x acc h)

/-- Membership in the fold of `insertKey`. -/
theorem mem_foldl_insertKey (l : List String) :
    ∀ acc x, x ∈ l.foldl (fun a n => insertKey n a) acc ↔ x ∈ acc ∨ x ∈ l := by
  induction l with
  | nil => intro acc x; simp
  | cons y ys ih =>
    intro acc x
    rw [List.foldl_cons, ih, mem_insertKey]
    simp only [List.mem_cons]
    tauto

/-- **C6.** For every header list, the canonical header names used by
`ConstructCanonicalRequest` are sorted lexicographically (byte-wise,
strictly, hence duplicate-free), are exactly the lower-casings of the
request's header names, and the canonical header block and the
signed-header list are both emitted from this one name list, so the two
sections contain exactly the same names. -/
theorem C6_canonical_header_names (hs : List (String × String)) :
    List.Sorted (fun a b => strLt a b = true) (canonicalHeaderNames hs)
    ∧ (∀ n, n ∈ canonicalHeaderNames hs ↔ ∃ p ∈ hs, n = lowerStr p.1)
    ∧ headerBlock hs = String.join ((canonicalHeaderNames hs).map fun n =>
        n ++ ":" ++ String.intercalate "," (headerValuesFor hs n) ++ "\n")
    ∧ signedHeadersLine hs = String.intercalate ";" (canonicalHeaderNames hs) := by
  refine ⟨?_, ?_, rfl, rfl⟩
  · exact foldl_insertKey_sorted _ [] (by simp)
  · intro n
    unfold canonicalHeaderNames sortKeys
    rw [mem_foldl_insertKey]
    simp only [List.mem_map, List.not_mem_nil, false_or]
    constructor
    · rintro ⟨p, hp, rfl⟩
      exact ⟨p, hp, rfl⟩
    · rintro ⟨p, hp, rfl⟩
      exact ⟨p, hp, rfl⟩

/-! ## Claim C4: emptiness as the failure signal -/

/-- The compression function always returns eight words. -/
theorem compress_length (h chunk : List Nat) : (compress h chunk).length = 8 := rfl

/-- Folding compressions preserves the eight-word hash state. -/
theorem foldl_compress_length (chunks : List (List Nat)) :
    ∀ h : List Nat, h.length = 8 → (chunks.foldl compress h).length = 8 := by
  induction chunks with
  | nil => intro h hh; exact hh
  | cons c cs ih => intro h hh; exact ih (compress h c) (compress_length h c)

/-- Word serialization produces four bytes per word. -/
theorem flatMap_be32_length (ws : List Nat) : (ws.flatMap be32).length = 4 * ws.length := by
  induction ws with
  | nil => rfl
  | cons w rest ih =>
    simp only [List.flatMap_cons, List.length_append, ih, be32, List.length_cons,
      List.length_nil]
    omega

/-- A SHA-256 digest is 32 bytes long. -/
theorem sha256_length (m : List Nat) : (sha256 m).length = 32 := by
  unfold sha256
  rw [flatMap_be32_length, foldl_compress_length _ shaH0 rfl]

/-- Every byte of a SHA-256 digest is below 256. -/
theorem sha256_byte_lt (m : List Nat) : ∀ b ∈ sha256 m, b < 256 := by
  intro b hb
  unfold sha256 at hb
  rw [List.mem_flatMap] at hb
  obtain ⟨w, _, hbw⟩ := hb
  simp only [be32, List.mem_cons, List.not_mem_nil, or_false] at hbw
  rcases hbw with rfl | rfl | rfl | rfl <;> exact Nat.mod_lt _ (by omega)

/-- Hex rendering yields two characters per byte. -/
theorem hexOfBytes_length (bs : List Nat) : (hexOfBytes bs).length = 2 * bs.length := by
  unfold hexOfBytes
  rw [String.length_mk]
  induction bs with
  | nil => rfl
  | cons b rest ih =>
    simp only [List.flatMap_cons, List.length_append, ih, List.length_cons,
      List.length_nil]
    omega

/-- Hex digits of values below 16 are lowercase hexadecimal characters. -/
theorem hexDigit_mem : ∀ n < 16, hexDigit n ∈ ("0123456789abcdef").data := by decide

/-- Every character of the hex rendering of a byte sequence is a
lowercase hexadecimal character. -/
theorem hexOfBytes_chars (bs : List Nat) (hb : ∀ b ∈ bs, b < 256) :
    ∀ c ∈ (hexOfBytes bs).data, c ∈ ("0123456789abcdef").data := by
  intro c hc
  unfold hexOfBytes at hc
  rw [show (String.mk (bs.flatMap fun b => [hexDigit (b / 16), hexDigit (b % 16)])).data
      = bs.flatMap fun b => [hexDigit (b / 16), hexDigit (b % 16)] from rfl] at hc
  rw [List.mem_flatMap] at hc
  obtain ⟨b, hbm, hcb⟩ := hc
  have hblt := hb b hbm
  simp only [List.mem_cons, List.not_mem_nil, or_false] at hcb
  rcases hcb with rfl | rfl
  · exact hexDigit_mem _ (by omega)
  · exact hexDigit_mem _ (Nat.mod_lt _ (by omega))

/-- The digest line of a canonical request: 64 characters, lowercase
hex. -/
theorem hexSha256_spec (s : String) :
    (hexSha256 s).length = 64
    ∧ ∀ c ∈ (hexSha256 s).data, c ∈ ("0123456789abcdef").data := by
  constructor
  · unfold hexSha256
    rw [hexOfBytes_length, sha256_length]
  · exact hexOfBytes_chars _ (sha256_byte_lt _)

/-- **C4.** `ConstructCanonicalRequest` returns the empty string exactly
when the input does not parse as a valid request; on every parsable
request the result is the five newline-terminated sections followed by
the lowercase-hex SHA-256 digest of the body — a 64-character lowercase
hexadecimal line, the digest of the empty input for an empty body — so
a legitimate canonical request is never empty and callers can use
emptiness as the failure test. -/
theorem C4_construct_canonical_request :
    (∀ raw, ConstructCanonicalRequest raw = "" ↔ parseRequest raw = none)
    ∧ (∀ raw r, parseRequest raw = some r →
        ConstructCanonicalRequest raw
          = (r.method ++ "\n" ++ canonicalUriOf r.target ++ "\n"
              ++ canonicalQueryOf r.target ++ "\n" ++ headerBlock r.headers ++ "\n"
              ++ signedHeadersLine r.headers ++ "\n") ++ hexSha256 r.body
        ∧ (hexSha256 r.body).length = 64
        ∧ ∀ c ∈ (hexSha256 r.body).data, c ∈ ("0123456789abcdef").data)
    ∧ hexSha256 "" = "e3b0c44298fc1c149afbf4c8996fb92427ae41e4649b934ca495991b7852b855" := by
  have hbuild : ∀ r : HttpRequest,
      buildCanonical r
        = (r.method ++ "\n" ++ canonicalUriOf r.target ++ "\n"
            ++ canonicalQueryOf r.target ++ "\n" ++ headerBlock r.headers ++ "\n"
            ++ signedHeadersLine r.headers ++ "\n") ++ hexSha256 r.body := by
    intro r
    simp only [buildCanonical, String.append_assoc]
  have hlen : ∀ r : HttpRequest, 64 ≤ (buildCanonical r).length := by
    intro r
    rw [hbuild r, String.length_append, (hexSha256_spec r.body).1]
    omega
  refine ⟨?_, ?_, by decide⟩
  · intro raw
    unfold ConstructCanonicalRequest
    cases hp : parseRequest raw with
    | none => simp
    | some r =>
      simp only [reduceCtorEq, iff_false]
      intro hempty
      have := hlen r
      rw [hempty] at this
      simp at this
  · intro raw r hp
    unfold ConstructCanonicalRequest
    rw [hp]
    exact ⟨hbuild r, (hexSha256_spec r.body).1, (hexSha256_spec r.body).2⟩

/-- Witness for C4 on a concrete minimal request with an empty body. -/
theorem C4_witness :
    ConstructCanonicalRequest "GET / HTTP/1.1\r\n\r\n"
      = ("GET" ++ "\n" ++ canonicalUriOf "/" ++ "\n" ++ canonicalQueryOf "/" ++ "\n"
          ++ headerBlock [] ++ "\n" ++ signedHeadersLine [] ++ "\n") ++ hexSha256 ""
    ∧ (hexSha256 "").length = 64
    ∧ ∀ c ∈ (hexSha256 "").data, c ∈ ("0123456789abcdef").data :=
  C4_construct_canonical_request.2.1 "GET / HTTP/1.1\r\n\r\n"
    (HttpRequest.mk "GET" "/" [] "") (by decide)

/-! ## C2 lemma development -/

theorem collapseGo_space_true (cs : List Char) :
    collapseGo true (' ' :: cs) = collapseGo true cs := by
  simp [collapseGo]

theorem collapseGo_space_false (cs : List Char) :
    collapseGo false (' ' :: cs) = ' ' :: collapseGo true cs := by
  simp [collapseGo]

theorem collapseGo_cons_ne (b : Bool) (c : Char) (cs : List Char) (h : ¬ c = ' ') :
    collapseGo b (c :: cs) = c :: collapseGo false cs := by
  cases b <;> simp [collapseGo, h]

theorem collapse_false_ne_nil (c : Char) (cs : List Char) :
    collapseGo false (c :: cs) ≠ [] := by
  by_cases h : c = ' '
  · subst h
    rw [collapseGo_space_false]
    exact List.cons_ne_nil _ _
  · rw [collapseGo_cons_ne _ _ _ h]
    exact List.cons_ne_nil _ _

theorem trimLeftWS_cons_ws (c : Char) (cs : List Char) (h : isWSb c = true) :
    trimLeftWS (c :: cs) = trimLeftWS cs := by
  simp [trimLeftWS, List.dropWhile_cons, h]

theorem trimLeftWS_cons_not_ws (c : Char) (cs : List Char) (h : isWSb c = false) :
    trimLeftWS (c :: cs) = c :: cs := by
  simp [trimLeftWS, List.dropWhile_cons, h]

theorem trimRightWS_cons_nil_ws (c : Char) (cs : List Char)
    (h1 : trimRightWS cs = []) (h2 : isWSb c = true) :
    trimRightWS (c :: cs) = [] := by
  unfold trimRightWS
  rw [if_pos (by simp [h1, h2])]

theorem trimRightWS_cons_keep (c : Char) (cs : List Char)
    (h : ¬ ((trimRightWS cs).isEmpty && isWSb c) = true) :
    trimRightWS (c :: cs) = c :: trimRightWS cs := by
  conv in trimRightWS (c :: cs) => unfold trimRightWS
  rw [if_neg h]

theorem trimLeft_collapse (cs : List Char) :
    trimLeftWS (collapseGo false cs) = collapseGo false (trimLeftWS cs)
    ∧ trimLeftWS (collapseGo true cs) = collapseGo false (trimLeftWS cs) := by
  induction cs with
  | nil => exact ⟨rfl, rfl⟩
  | cons c cs ih =>
    by_cases hsp : c = ' '
    · subst hsp
      rw [collapseGo_space_false, collapseGo_space_true,
        trimLeftWS_cons_ws _ _ (by decide),
        trimLeftWS_cons_ws _ _ (by decide)]
      exact ⟨ih.2, ih.2⟩
    · by_cases htab : c = '\t'
      · subst htab
        rw [collapseGo_cons_ne _ _ _ hsp, collapseGo_cons_ne _ _ _ hsp,
          trimLeftWS_cons_ws _ _ (by decide),
          trimLeftWS_cons_ws _ _ (by decide)]
        exact ⟨ih.1, ih.1⟩
      · have hws : isWSb c = false := by
          simp [isWSb, hsp, htab]
        rw [collapseGo_cons_ne _ _ _ hsp, collapseGo_cons_ne _ _ _ hsp,
          trimLeftWS_cons_not_ws _ _ hws,
          trimLeftWS_cons_not_ws _ _ hws,
          collapseGo_cons_ne _ _ _ hsp]
        exact ⟨rfl, rfl⟩

theorem collapse_true_trimRight_nil (l : List Char) :
    collapseGo true (trimRightWS l) = [] → trimRightWS l = [] := by
  induction l with
  | nil => intro _; rfl
  | cons c cs ih =>
    intro h
    by_cases hcond : ((trimRightWS cs).isEmpty && isWSb c) = true
    · unfold trimRightWS
      rw [if_pos hcond]
    · rw [trimRightWS_cons_keep _ _ hcond] at h
      exfalso
      by_cases hsp : c = ' '
      · subst hsp
        have hr : ¬ (trimRightWS cs).isEmpty = true := by
          intro habs
          exact hcond (by simp [habs, isWSb])
        rw [collapseGo_space_true] at h
        have := ih h
        rw [this] at hr
        simp at hr
      · rw [collapseGo_cons_ne _ _ _ hsp] at h
        exact List.cons_ne_nil _ _ h

theorem trimRight_collapse (cs : List Char) :
    trimRightWS (collapseGo false cs) = collapseGo false (trimRightWS cs)
    ∧ trimRightWS (collapseGo true cs) = collapseGo true (trimRightWS cs) := by
  induction cs with
  | nil => exact ⟨rfl, rfl⟩
  | cons c cs ih =>
    by_cases hr : trimRightWS cs = []
    · by_cases hsp : c = ' '
      · subst hsp
        have htr : trimRightWS (' ' :: cs) = [] :=
          trimRightWS_cons_nil_ws _ _ hr (by decide)
        have hX1 : trimRightWS (collapseGo true cs) = [] := by
          rw [ih.2, hr]
          rfl
        constructor
        · rw [collapseGo_space_false, htr,
            trimRightWS_cons_nil_ws _ _ hX1 (by decide)]
          rfl
        · rw [collapseGo_space_true, htr, hX1]
          rfl
      · have hX0 : trimRightWS (collapseGo false cs) = [] := by
          rw [ih.1, hr]
          rfl
        by_cases hws : isWSb c = true
        · have htr : trimRightWS (c :: cs) = [] :=
            trimRightWS_cons_nil_ws _ _ hr hws
          rw [collapseGo_cons_ne _ _ _ hsp, collapseGo_cons_ne _ _ _ hsp, htr,
            trimRightWS_cons_nil_ws _ _ hX0 hws]
          exact ⟨rfl, rfl⟩
        · have htr : trimRightWS (c :: cs) = [c] := by
            rw [trimRightWS_cons_keep _ _ (by simp [hws]), hr]
          rw [collapseGo_cons_ne _ _ _ hsp, collapseGo_cons_ne _ _ _ hsp, htr,
            trimRightWS_cons_keep _ _ (by simp [hws]), hX0,
            collapseGo_cons_ne _ _ _ hsp, collapseGo_cons_ne _ _ _ hsp]
          exact ⟨rfl, rfl⟩
    · have hX1ne : collapseGo true (trimRightWS cs) ≠ [] := by
        intro habs
        exact hr (collapse_true_trimRight_nil cs habs)
      by_cases hsp : c = ' '
      · subst hsp
        have htr : trimRightWS (' ' :: cs) = ' ' :: trimRightWS cs := by
          rw [trimRightWS_cons_keep _ _ (by simp [hr])]
        constructor
        · rw [collapseGo_space_false, htr, collapseGo_space_false,
            trimRightWS_cons_keep _ _ (by simp [ih.2, hX1ne]), ih.2]
        · rw [collapseGo_space_true, htr, collapseGo_space_true, ih.2]
      · have hX0ne : collapseGo false (trimRightWS cs) ≠ [] := by
          cases hcs : trimRightWS cs with
          | nil => exact absurd hcs hr
          | cons y ys => exact collapse_false_ne_nil y ys
        have htr : trimRightWS (c :: cs) = c :: trimRightWS cs := by
          rw [trimRightWS_cons_keep _ _ (by simp [hr])]
        rw [collapseGo_cons_ne _ _ _ hsp, collapseGo_cons_ne _ _ _ hsp, htr,
          trimRightWS_cons_keep _ _ (by simp [ih.1, hX0ne]), ih.1,
          collapseGo_cons_ne _ _ _ hsp, collapseGo_cons_ne _ _ _ hsp]
        exact ⟨rfl, rfl⟩

theorem collapse_trim_comm (s : String) :
    CanonicalizeSpaces (trimOWS s) = trimOWS (CanonicalizeSpaces s) := by
  show String.mk (collapseGo false (trimRightWS (trimLeftWS s.data)))
      = String.mk (trimRightWS (trimLeftWS (collapseGo false s.data)))
  have h1 := (trimRight_collapse (trimLeftWS s.data)).1
  have h2 := (trimLeft_collapse s.data).1
  rw [← h1, h2]

theorem collapse_noTwo (cs : List Char) :
    noTwoSpaces (collapseGo false cs) = true
    ∧ noTwoSpaces (collapseGo true cs) = true
    ∧ ∀ t, collapseGo true cs ≠ ' ' :: t := by
  induction cs with
  | nil => exact ⟨rfl, rfl, fun t h => List.noConfusion h⟩
  | cons c cs ih =>
    by_cases hsp : c = ' '
    · subst hsp
      rw [collapseGo_space_false, collapseGo_space_true]
      refine ⟨?_, ih.2.1, ih.2.2⟩
      cases hX : collapseGo true cs with
      | nil => rfl
      | cons y ys =>
        have hy : ¬ y = ' ' := by
          intro habs
          subst habs
          exact ih.2.2 ys hX
        show (!(' ' == ' ' && y == ' ') && noTwoSpaces (y :: ys)) = true
        have h1 : noTwoSpaces (y :: ys) = true := by
          rw [← hX]
          exact ih.2.1
        simp [hy, h1]
    · rw [collapseGo_cons_ne _ _ _ hsp, collapseGo_cons_ne _ _ _ hsp]
      have hmain : noTwoSpaces (c :: collapseGo false cs) = true := by
        cases hX : collapseGo false cs with
        | nil => rfl
        | cons y ys =>
          show (!(c == ' ' && y == ' ') && noTwoSpaces (y :: ys)) = true
          have h1 : noTwoSpaces (y :: ys) = true := by
            rw [← hX]
            exact ih.1
          simp [hsp, h1]
      refine ⟨hmain, hmain, ?_⟩
      intro t hteq
      injection hteq with h1 h2
      exact hsp h1

theorem firstNotWS_trimLeft (l : List Char) : firstNotWS (trimLeftWS l) = true := by
  induction l with
  | nil => rfl
  | cons c cs ih =>
    by_cases h : isWSb c = true
    · rw [trimLeftWS_cons_ws _ _ h]
      exact ih
    · rw [trimLeftWS_cons_not_ws _ _ (by simp [h])]
      show (!isWSb c) = true
      simp [h]

theorem firstNotWS_trimRight (l : List Char) (h : firstNotWS l = true) :
    firstNotWS (trimRightWS l) = true := by
  cases l with
  | nil => rfl
  | cons c cs =>
    by_cases hcond : ((trimRightWS cs).isEmpty && isWSb c) = true
    · unfold trimRightWS
      rw [if_pos hcond]
      rfl
    · rw [trimRightWS_cons_keep _ _ hcond]
      exact h

theorem firstNotWS_collapse (l : List Char) (h : firstNotWS l = true) :
    firstNotWS (collapseGo false l) = true := by
  cases l with
  | nil => rfl
  | cons c cs =>
    have hsp : ¬ c = ' ' := by
      intro habs
      subst habs
      simp [firstNotWS, isWSb] at h
    rw [collapseGo_cons_ne _ _ _ hsp]
    exact h

theorem lastNotWS_cons_cons (c d : Char) (r : List Char) :
    lastNotWS (c :: d :: r) = lastNotWS (d :: r) := rfl

theorem lastNotWS_trimRight (l : List Char) : lastNotWS (trimRightWS l) = true := by
  induction l with
  | nil => rfl
  | cons c cs ih =>
    by_cases hcond : ((trimRightWS cs).isEmpty && isWSb c) = true
    · unfold trimRightWS
      rw [if_pos hcond]
      rfl
    · rw [trimRightWS_cons_keep _ _ hcond]
      cases hX : trimRightWS cs with
      | nil =>
        have hws : isWSb c = false := by
          by_cases hb : isWSb c = true
          · exact absurd (by simp [hX, hb]) hcond
          · exact Bool.eq_false_iff.mpr hb
        show lastNotWS [c] = true
        simp [lastNotWS, hws]
      | cons y ys =>
        rw [lastNotWS_cons_cons]
        rw [← hX]
        exact ih

theorem collapse_true_nil_of_lastNotWS (l : List Char) :
    lastNotWS l = true → collapseGo true l = [] → l = [] := by
  induction l with
  | nil => intro _ _; rfl
  | cons c cs ih =>
    intro hl hc
    by_cases hsp : c = ' '
    · subst hsp
      rw [collapseGo_space_true] at hc
      cases cs with
      | nil => simp [lastNotWS, isWSb] at hl
      | cons d ds =>
        rw [lastNotWS_cons_cons] at hl
        exact absurd (ih hl hc) (List.cons_ne_nil d ds)
    · rw [collapseGo_cons_ne _ _ _ hsp] at hc
      exact absurd hc (List.cons_ne_nil _ _)

theorem lastNotWS_collapse (l : List Char) (h : lastNotWS l = true) :
    ∀ b, lastNotWS (collapseGo b l) = true := by
  induction l with
  | nil => intro b; rfl
  | cons c cs ih =>
    intro b
    cases cs with
    | nil =>
      have hws : isWSb c = false := by simpa [lastNotWS] using h
      have hsp : ¬ c = ' ' := by
        intro habs
        subst habs
        simp [isWSb] at hws
      rw [collapseGo_cons_ne _ _ _ hsp]
      simp [lastNotWS, collapseGo, hws]
    | cons d ds =>
      rw [lastNotWS_cons_cons] at h
      by_cases hsp : c = ' '
      · subst hsp
        cases b with
        | true =>
          rw [collapseGo_space_true]
          exact ih h true
        | false =>
          rw [collapseGo_space_false]
          cases hX : collapseGo true (d :: ds) with
          | nil =>
            exact absurd (collapse_true_nil_of_lastNotWS _ h hX)
              (List.cons_ne_nil d ds)
          | cons y ys =>
            rw [lastNotWS_cons_cons, ← hX]
            exact ih h true
      · rw [collapseGo_cons_ne _ _ _ hsp]
        cases hX : collapseGo false (d :: ds) with
        | nil => exact absurd hX (collapse_false_ne_nil d ds)
        | cons y ys =>
          rw [lastNotWS_cons_cons, ← hX]
          exact ih h false

theorem parseHeaderLine_value (l : String) (p : String × String)
    (h : parseHeaderLine l = some p) : ∃ rawv, p.2 = trimOWS rawv := by
  unfold parseHeaderLine at h
  split_ifs at h with h1 h2
  injection h with h
  exact ⟨String.mk ((l.data.dropWhile (· ≠ ':')).drop 1), by rw [← h]⟩

theorem parseHeaders_values (ls : List String) :
    ∀ hs, parseHeaders ls = some hs →
      ∀ p ∈ hs, ∃ rawv, p.2 = trimOWS rawv := by
  induction ls with
  | nil =>
    intro hs h p hp
    cases h
    cases hp
  | cons l ls ih =>
    intro hs h p hp
    unfold parseHeaders at h
    cases hhd : parseHeaderLine l with
    | none => rw [hhd] at h; cases h
    | some hd =>
      rw [hhd] at h
      cases htl : parseHeaders ls with
      | none => rw [htl] at h; cases h
      | some t =>
        rw [htl] at h
        cases h
        rcases List.mem_cons.mp hp with rfl | hpt
        · exact parseHeaderLine_value l p hhd
        · exact ih t htl p hpt

theorem parseRequest_header_values (raw : String) (req : HttpRequest)
    (h : parseRequest raw = some req) :
    ∀ p ∈ req.headers, ∃ rawv, p.2 = trimOWS rawv := by
  unfold parseRequest at h
  cases hsplit : splitOnList "\r\n\r\n".data raw.data with
  | nil => rw [hsplit] at h; cases h
  | cons headPart rest1 =>
    rw [hsplit] at h
    cases rest1 with
    | nil => cases h
    | cons r1 rest =>
      dsimp only at h
      cases hlines : (splitOnList "\r\n".data headPart).map String.mk with
      | nil => rw [hlines] at h; cases h
      | cons reqLine headerLines =>
        rw [hlines] at h
        dsimp only at h
        cases hrl : parseRequestLine reqLine with
        | none => rw [hrl] at h; cases h
        | some mt =>
          rw [hrl] at h
          cases hph : parseHeaders headerLines with
          | none => rw [hph] at h; cases h
          | some hs =>
            rw [hph] at h
            cases h
            exact parseHeaders_values headerLines hs hph

theorem C2_header_value_canonicalization :
    ∀ raw req, parseRequest raw = some req →
      ∀ n gv, gv ∈ headerValuesFor req.headers n →
        (∃ p ∈ req.headers, gv = CanonicalizeSpaces p.2
          ∧ ∃ rawv, p.2 = trimOWS rawv ∧ gv = trimOWS (CanonicalizeSpaces rawv))
        ∧ noTwoSpaces gv.data = true
        ∧ firstNotWS gv.data = true
        ∧ lastNotWS gv.data = true := by
  intro raw req hreq n gv hgv
  unfold headerValuesFor at hgv
  rw [List.mem_filterMap] at hgv
  obtain ⟨p, hp, hif⟩ := hgv
  by_cases hn : lowerStr p.1 = n
  · rw [if_pos hn] at hif
    injection hif with hif
    obtain ⟨rawv, hrawv⟩ := parseRequest_header_values raw req hreq p hp
    have hgv2 : gv = trimOWS (CanonicalizeSpaces rawv) := by
      rw [← hif, hrawv, collapse_trim_comm]
    have hdata : gv.data = collapseGo false (trimOWS rawv).data := by
      rw [← hif, hrawv]
      rfl
    refine ⟨⟨p, hp, hif.symm, rawv, hrawv, hgv2⟩, ?_, ?_, ?_⟩
    · rw [hdata]
      exact (collapse_noTwo _).1
    · rw [hdata]
      refine firstNotWS_collapse _ ?_
      show firstNotWS (trimRightWS (trimLeftWS rawv.data)) = true
      exact firstNotWS_trimRight _ (firstNotWS_trimLeft _)
    · rw [hdata]
      refine lastNotWS_collapse _ ?_ false
      exact lastNotWS_trimRight _
  · rw [if_neg hn] at hif
    cases hif

theorem C2_witness :
    (∃ p ∈ [("Host", "a  b")], ("a b" : String) = CanonicalizeSpaces p.2
      ∧ ∃ rawv, p.2 = trimOWS rawv ∧ ("a b" : String) = trimOWS (CanonicalizeSpaces rawv))
    ∧ noTwoSpaces ("a b" : String).data = true
    ∧ firstNotWS ("a b" : String).data = true
    ∧ lastNotWS ("a b" : String).data = true := by
  have h := C2_header_value_canonicalization "GET / HTTP/1.1\r\nHost:  a  b \r\n\r\n"
    (HttpRequest.mk "GET" "/" [("Host", "a  b")] "") (by decide) "host" "a b"
    (by decide)
  exact h


/-! ## Claim C9: the scan is total -/

theorem stackChain_tail (a : List PStep) (t : List (List PStep))
    (h : stackChain (a :: t)) : stackChain t := by
  cases t with
  | nil => trivial
  | cons b t2 => exact h.2

theorem getNode_nil (j : JVal) : getNode j [] = some j := by
  cases j <;> rfl

theorem getNode_append (p : List PStep) :
    ∀ (j : JVal) (q : List PStep),
      getNode j (p ++ q) = (getNode j p).bind fun w => getNode w q := by
  induction p with
  | nil =>
    intro j q
    rw [List.nil_append, getNode_nil, Option.some_bind]
  | cons s p ih =>
    intro j q
    cases s with
    | fld n =>
      cases j with
      | objV fs =>
        show getNode (JVal.objV fs) (PStep.fld n :: (p ++ q)) = _
        cases hval : lookupF fs n with
        | none => simp [getNode, hval]
        | some v => simp [getNode, hval, ih]
      | nullV => rfl
      | strV s2 => rfl
      | arrV es => rfl
    | idx i =>
      cases j with
      | arrV es =>
        show getNode (JVal.arrV es) (PStep.idx i :: (p ++ q)) = _
        cases hval : es[i]? with
        | none => simp [getNode, hval]
        | some v => simp [getNode, hval, ih]
      | nullV => rfl
      | strV s2 => rfl
      | objV fs => rfl

theorem getNode_isSome_of_ancestor {j : JVal} {a b : List PStep}
    (hpre : List.IsPrefix b a) (ha : (getNode j a).isSome = true) :
    (getNode j b).isSome = true := by
  obtain ⟨r, rfl⟩ := hpre
  rw [getNode_append] at ha
  cases hb : getNode j b with
  | none => rw [hb] at ha; simp at ha
  | some w => rfl

theorem setNode_nil (j v : JVal) : setNode j [] v = some v := by
  cases j <;> rfl

theorem setNode_isSome {v : JVal} :
    ∀ {p : List PStep} {j : JVal}, (getNode j p).isSome = true →
      (setNode j p v).isSome = true := by
  intro p
  induction p with
  | nil =>
    intro j _
    rw [setNode_nil]
    rfl
  | cons s p ih =>
    intro j hget
    cases s with
    | fld n =>
      cases j with
      | objV fs =>
        cases hval : lookupF fs n with
        | none => simp [getNode, hval] at hget
        | some w =>
          simp only [getNode, hval] at hget
          have h2 := ih (j := w) hget
          cases hset : setNode w p v with
          | none => rw [hset] at h2; simp at h2
          | some w2 => simp [setNode, hval, hset]
      | nullV => simp [getNode] at hget
      | strV s2 => simp [getNode] at hget
      | arrV es => simp [getNode] at hget
    | idx i =>
      cases j with
      | arrV es =>
        cases hval : es[i]? with
        | none => simp [getNode, hval] at hget
        | some w =>
          simp only [getNode, hval] at hget
          have h2 := ih (j := w) hget
          cases hset : setNode w p v with
          | none => rw [hset] at h2; simp at h2
          | some w2 => simp [setNode, hval, hset]
      | nullV => simp [getNode] at hget
      | strV s2 => simp [getNode] at hget
      | objV fs => simp [getNode] at hget

theorem lookupF_setF_self (fs : List (String × JVal)) (n : String) (v : JVal) :
    lookupF (setF fs n v) n = some v := by
  induction fs with
  | nil => simp [setF, lookupF]
  | cons kv t ih =>
    obtain ⟨k, w⟩ := kv
    by_cases hk : k = n
    · simp [setF, lookupF, hk]
    · simp [setF, lookupF, hk, ih]

theorem setIdx_get_self (es : List JVal) :
    ∀ (i : Nat) (v w : JVal), es[i]? = some w →
      (setIdx es i v)[i]? = some v := by
  induction es with
  | nil => intro i v w h; simp at h
  | cons x t ih =>
    intro i v w h
    cases i with
    | zero =>
      rw [show setIdx (x :: t) 0 v = v :: t from rfl, List.getElem?_cons_zero]
    | succ i2 =>
      rw [List.getElem?_cons_succ] at h
      show (setIdx (x :: t) (i2 + 1) v)[i2 + 1]? = some v
      rw [show setIdx (x :: t) (i2 + 1) v = x :: setIdx t i2 v from rfl,
        List.getElem?_cons_succ]
      exact ih i2 v w h

theorem getNode_setNode {v : JVal} :
    ∀ {p : List PStep} {j j2 : JVal}, setNode j p v = some j2 →
      getNode j2 p = some v := by
  intro p
  induction p with
  | nil =>
    intro j j2 h
    rw [setNode_nil] at h
    injection h with h
    rw [← h, getNode_nil]
  | cons s p ih =>
    intro j j2 h
    cases s with
    | fld n =>
      cases j with
      | objV fs =>
        cases hval : lookupF fs n with
        | none => simp [setNode, hval] at h
        | some w =>
          simp only [setNode, hval] at h
          cases hset : setNode w p v with
          | none => rw [hset] at h; cases h
          | some w2 =>
            rw [hset] at h
            injection h with h
            rw [← h]
            simp [getNode, lookupF_setF_self, ih hset]
      | nullV => exact Option.noConfusion h
      | strV s2 => exact Option.noConfusion h
      | arrV es => exact Option.noConfusion h
    | idx i =>
      cases j with
      | arrV es =>
        cases hval : es[i]? with
        | none => simp [setNode, hval] at h
        | some w =>
          simp only [setNode, hval] at h
          cases hset : setNode w p v with
          | none => rw [hset] at h; cases h
          | some w2 =>
            rw [hset] at h
            injection h with h
            rw [← h]
            simp [getNode, setIdx_get_self es i w2 w hval, ih hset]
      | nullV => exact Option.noConfusion h
      | strV s2 => exact Option.noConfusion h
      | objV fs => exact Option.noConfusion h

theorem setNode_preserves_ancestor {v : JVal} :
    ∀ (q : List PStep) {r : List PStep} {j j2 : JVal},
      setNode j (q ++ r) v = some j2 →
      ∃ w2, getNode j2 q = some w2 := by
  intro q
  induction q with
  | nil =>
    intro r j j2 _
    exact ⟨j2, getNode_nil j2⟩
  | cons s q ih =>
    intro r j j2 h
    cases s with
    | fld n =>
      cases j with
      | objV fs =>
        rw [List.cons_append] at h
        cases hval : lookupF fs n with
        | none => simp [setNode, hval] at h
        | some w =>
          simp only [setNode, hval] at h
          cases hset : setNode w (q ++ r) v with
          | none => rw [hset] at h; cases h
          | some w2 =>
            rw [hset] at h
            injection h with h
            obtain ⟨w3, hw3⟩ := ih hset
            refine ⟨w3, ?_⟩
            rw [← h]
            simp [getNode, lookupF_setF_self, hw3]
      | nullV => exact Option.noConfusion h
      | strV s2 => exact Option.noConfusion h
      | arrV es => exact Option.noConfusion h
    | idx i =>
      cases j with
      | arrV es =>
        rw [List.cons_append] at h
        cases hval : es[i]? with
        | none => simp [setNode, hval] at h
        | some w =>
          simp only [setNode, hval] at h
          cases hset : setNode w (q ++ r) v with
          | none => rw [hset] at h; cases h
          | some w2 =>
            rw [hset] at h
            injection h with h
            obtain ⟨w3, hw3⟩ := ih hset
            refine ⟨w3, ?_⟩
            rw [← h]
            simp [getNode, setIdx_get_self es i w2 w hval, hw3]
      | nullV => exact Option.noConfusion h
      | strV s2 => exact Option.noConfusion h
      | objV fs => exact Option.noConfusion h

theorem lookupF_append_missing (fs : List (String × JVal)) (n : String) (v : JVal)
    (h : lookupF fs n = none) : lookupF (fs ++ [(n, v)]) n = some v := by
  induction fs with
  | nil => simp [lookupF]
  | cons kv t ih =>
    obtain ⟨k, w⟩ := kv
    by_cases hk : k = n
    · simp [lookupF, hk] at h
    · simp only [List.cons_append, lookupF, if_neg hk] at h ⊢
      exact ih h

theorem getNode_obj_fld (fs : List (String × JVal)) (n : String) (p : List PStep) :
    getNode (JVal.objV fs) (PStep.fld n :: p)
      = match lookupF fs n with
        | some v => getNode v p
        | none => none := rfl

theorem getNode_arr_idx (es : List JVal) (i : Nat) (p : List PStep) :
    getNode (JVal.arrV es) (PStep.idx i :: p)
      = match es[i]? with
        | some v => getNode v p
        | none => none := rfl

/-- The freshly appended null element of an array slot is reachable at
the index the transcoder pushes. -/
theorem getNode_array_slot (fs0 : List (String × JVal)) (tag : String)
    (es : List JVal) :
    getNode (JVal.objV (setF fs0 tag (JVal.arrV (es ++ [JVal.nullV]))))
      [PStep.fld tag, PStep.idx es.length] = some JVal.nullV := by
  rw [getNode_obj_fld, lookupF_setF_self]
  dsimp only
  rw [getNode_arr_idx, List.getElem?_concat_length]
  rfl

/-- The (created or pre-existing) object slot is reachable at the field
the transcoder pushes. -/
theorem getNode_obj_slot (fs0 : List (String × JVal)) (tag : String) :
    (getNode (JVal.objV (objFields fs0 tag)) [PStep.fld tag]).isSome = true := by
  rw [getNode_obj_fld]
  unfold objFields
  cases hlk : lookupF fs0 tag with
  | some w =>
    rw [hlk]
    dsimp only
    rw [getNode_nil]
    rfl
  | none =>
    show (match lookupF (fs0 ++ [(tag, JVal.nullV)]) tag with
      | some v => getNode v []
      | none => none).isSome = true
    rw [lookupF_append_missing _ _ _ hlk]
    rfl

theorem openTag_ok (arr : List String) (m : XmlM) (hInv : MInv m) :
    ∃ m2, openTag arr m = some m2 ∧ MInv m2 := by
  obtain ⟨hchain, hhead⟩ := hInv
  obtain ⟨parent, hparent⟩ := Option.isSome_iff_exists.mp hhead
  have hchainNew : ∀ q : List PStep,
      stackChain ((m.stack.headD [] ++ q) :: m.stack) := by
    intro q
    cases hstack : m.stack with
    | nil => exact trivial
    | cons a t =>
      rw [hstack] at hchain
      exact ⟨List.prefix_append a q, hchain⟩
  unfold openTag
  rw [hparent]
  dsimp only
  by_cases harr : String.mk m.data ∈ arr
  · rw [if_pos harr]
    have hset := setNode_isSome
      (v := JVal.objV (setF (parentFields parent) (String.mk m.data)
        (JVal.arrV (arrElems (parentFields parent) (String.mk m.data)
          ++ [JVal.nullV])))) hhead
    obtain ⟨j, hj⟩ := Option.isSome_iff_exists.mp hset
    rw [hj]
    refine ⟨_, rfl, hchainNew _, ?_⟩
    show (getNode j (m.stack.headD [] ++ [PStep.fld (String.mk m.data),
      PStep.idx (arrElems (parentFields parent) (String.mk m.data)).length])).isSome
      = true
    rw [getNode_append, getNode_setNode hj, Option.some_bind, getNode_array_slot]
    rfl
  · rw [if_neg harr]
    have hset := setNode_isSome
      (v := JVal.objV (objFields (parentFields parent) (String.mk m.data))) hhead
    obtain ⟨j, hj⟩ := Option.isSome_iff_exists.mp hset
    rw [hj]
    refine ⟨_, rfl, hchainNew _, ?_⟩
    show (getNode j (m.stack.headD [] ++ [PStep.fld (String.mk m.data)])).isSome
      = true
    rw [getNode_append, getNode_setNode hj, Option.some_bind]
    exact getNode_obj_slot _ _

theorem step_ok (arr : List String) (c : Char) (m : XmlM) (hInv : MInv m) :
    ∃ m2, step arr m c = some m2 ∧ MInv m2 := by
  cases hst : m.st with
  | header =>
    refine ⟨_, by unfold step; rw [hst], ?_⟩
    by_cases hc : c = '>'
    · rw [if_pos hc]; exact hInv
    · rw [if_neg hc]; exact hInv
  | document =>
    refine ⟨_, by unfold step; rw [hst], ?_⟩
    by_cases hc : c = '>'
    · rw [if_pos hc]; exact hInv
    · rw [if_neg hc]; exact hInv
  | tagBegin =>
    refine ⟨_, by unfold step; rw [hst], ?_⟩
    by_cases hc : c = '<'
    · rw [if_pos hc]; exact hInv
    · rw [if_neg hc]; exact hInv
  | tagBeginOrContent =>
    refine ⟨_, by unfold step; rw [hst], ?_⟩
    by_cases hc : c = '<'
    · rw [if_pos hc]; exact hInv
    · rw [if_neg hc]; exact hInv
  | xend =>
    exact ⟨m, by unfold step; rw [hst], hInv⟩
  | tag =>
    by_cases h1 : c = '/'
    · refine ⟨XmlM.mk XState.tagEnd m.data m.stack m.json, ?_, hInv⟩
      unfold step
      rw [hst]
      dsimp only
      rw [if_pos h1]
    · by_cases h2 : c = '>'
      · obtain ⟨m2, hm2, hInv2⟩ := openTag_ok arr m hInv
        refine ⟨m2, ?_, hInv2⟩
        unfold step
        rw [hst]
        dsimp only
        rw [if_neg h1, if_pos h2, hm2]
      · refine ⟨XmlM.mk XState.tag (m.data ++ [c]) m.stack m.json, ?_, hInv⟩
        unfold step
        rw [hst]
        dsimp only
        rw [if_neg h1, if_neg h2]
  | content =>
    by_cases h1 : c = '<'
    · have hset := setNode_isSome
        (v := JVal.strV (String.mk m.data)) hInv.2
      obtain ⟨j, hj⟩ := Option.isSome_iff_exists.mp hset
      refine ⟨XmlM.mk XState.tagEnd m.data m.stack j, ?_, hInv.1, ?_⟩
      · unfold step
        rw [hst]
        dsimp only
        rw [if_pos h1, hj]
      · show (getNode j (m.stack.headD [])).isSome = true
        rw [getNode_setNode hj]
        rfl
    · refine ⟨XmlM.mk XState.content (m.data ++ [c]) m.stack m.json, ?_, hInv⟩
      unfold step
      rw [hst]
      dsimp only
      rw [if_neg h1]
  | tagEnd =>
    by_cases h1 : c = '>'
    · cases hstack : m.stack with
      | nil =>
        refine ⟨XmlM.mk XState.xend m.data m.stack m.json, ?_, hInv⟩
        unfold step
        rw [hst]
        dsimp only
        rw [if_pos h1, hstack]
      | cons a t =>
        refine ⟨XmlM.mk XState.tagBegin m.data t m.json, ?_, ?_, ?_⟩
        · unfold step
          rw [hst]
          dsimp only
          rw [if_pos h1, hstack]
        · show stackChain t
          exact stackChain_tail a t (hstack ▸ hInv.1)
        · show (getNode m.json (t.headD [])).isSome = true
          cases t with
          | nil =>
            rw [show ([] : List (List PStep)).headD [] = [] from rfl, getNode_nil]
            rfl
          | cons b t2 =>
            have hchain2 := hstack ▸ hInv.1
            have hpre : List.IsPrefix b a := hchain2.1
            have hheadA : (getNode m.json a).isSome = true := by
              have h3 := hInv.2
              rw [hstack] at h3
              exact h3
            exact getNode_isSome_of_ancestor hpre hheadA
    · exact ⟨m, by unfold step; rw [hst]; dsimp only; rw [if_neg h1], hInv⟩

theorem runXml_ok (arr : List String) (l : List Char) :
    ∀ m, MInv m → ∃ m2, runXml arr l m = some m2 := by
  induction l with
  | nil => intro m _; exact ⟨m, rfl⟩
  | cons c cs ih =>
    intro m hInv
    obtain ⟨m2, hstep, hInv2⟩ := step_ok arr c m hInv
    obtain ⟨m3, hrun⟩ := ih m2 hInv2
    refine ⟨m3, ?_⟩
    simp only [runXml]
    rw [hstep]
    exact hrun

theorem C9_transcoder_total (xml : String) (arr : List String) :
    (XmlToJson xml arr).isSome = true := by
  have hInit : MInv initM := ⟨trivial, rfl⟩
  obtain ⟨m2, hrun⟩ := runXml_ok arr xml.data initM hInit
  unfold XmlToJson
  rw [hrun]
  rfl

/-- **C8.** On an XML body containing two `Bucket` elements inside a
`Buckets` element, with `Bucket` in the caller-supplied array-tag set,
the transcoder yields under the Buckets node an array of exactly two
tree nodes, each an object with `Name` and `CreationDate` string
fields, in document order. -/
theorem C8_list_buckets :
    xmlLookup listBucketsXml ["Bucket"] [PStep.fld "Buckets", PStep.fld "Bucket"]
      = some (JVal.arrV
          [JVal.objV [("Name", JVal.strV "foo"),
             ("CreationDate", JVal.strV "2018-02-01T08:30:12.123Z")],
           JVal.objV [("Name", JVal.strV "bar"),
             ("CreationDate", JVal.strV "2018-06-08T11:25:43.456Z")]])
    ∧ xmlLookup listBucketsXml ["Bucket"]
        [PStep.fld "Buckets", PStep.fld "Bucket", PStep.idx 0, PStep.fld "Name"]
      = some (JVal.strV "foo")
    ∧ xmlLookup listBucketsXml ["Bucket"]
        [PStep.fld "Buckets", PStep.fld "Bucket", PStep.idx 1, PStep.fld "Name"]
      = some (JVal.strV "bar") := by
  exact ⟨rfl, rfl, rfl⟩

end AwsProof
